import Mathlib

/-!
# A verification development for a Python BitTorrent client

Shallow embedding of the download-engine core of a small BitTorrent
client (bencoding codec, metainfo parsing, piece manager, tracker
response handling), together with proofs of the specification's
testable properties.

Conventions of the embedding:
* Python `bytes` values are `List Nat` (each element a byte value).
* Python integers are `Int` (arbitrary precision, as in Python).
* Python dictionaries are association lists in insertion order;
  `assocInsert` models `d[k] = v`, `assocLookup` models `d[k]` /
  `k in d`, and `assocRemove` models `del d[k]`.
* Fallible Python code (uncaught exceptions) is modelled with `Option`.
* `time.time()` values are modelled as integer seconds (`Nat`).
-/

/-- Python `d[k] = v` on a dict kept as an association list in insertion
order: an existing key is updated in place, a new key is appended. -/
def assocInsert {κ α : Type} [DecidableEq κ] (k : κ) (v : α) :
    List (κ × α) → List (κ × α)
  | [] => [(k, v)]
  | (k', v') :: rest =>
    if k' = k then (k', v) :: rest else (k', v') :: assocInsert k v rest

/-- Python `d[k]` / `d.get(k)`: the value stored at key `k`, if present. -/
def assocLookup {κ α : Type} [DecidableEq κ] (k : κ) :
    List (κ × α) → Option α
  | [] => none
  | (k', v) :: rest => if k' = k then some v else assocLookup k rest

/-- Python `del d[k]`: removes the (unique) entry with key `k`. -/
def assocRemove {κ α : Type} [DecidableEq κ] (k : κ) :
    List (κ × α) → List (κ × α)
  | [] => []
  | (k', v) :: rest =>
    if k' = k then rest else (k', v) :: assocRemove k rest

/-- ASCII decimal digits of a natural number, most significant first;
models Python `str(n)` for `n ≥ 0`. -/
def natToDigits (n : Nat) : List Nat :=
  if n < 10 then [48 + n] else natToDigits (n / 10) ++ [48 + n % 10]
termination_by n
decreasing_by
  exact Nat.div_lt_self (by omega) (by omega)

/-- ASCII bytes of Python `str(n)` for an arbitrary integer. -/
def intToBytes (n : Int) : List Nat :=
  if n < 0 then 45 :: natToDigits n.natAbs else natToDigits n.natAbs

/-- ASCII digit test for a byte. -/
def isDigit (b : Nat) : Bool := 48 ≤ b && b ≤ 57

/-- Value of an ASCII digit string (assuming all bytes are digits). -/
def digitsVal (l : List Nat) : Nat :=
  l.foldl (fun a b => a * 10 + (b - 48)) 0

/-- Parses a nonempty all-digit byte string to a natural number. -/
def parseDigits (s : List Nat) : Option Nat :=
  if s ≠ [] ∧ s.all isDigit then some (digitsVal s) else none

/-- Models Python `int(s)` on a byte string: an optional `+`/`-` sign
followed by a nonempty run of ASCII digits.  (Python additionally strips
surrounding whitespace and allows `_` separators between digits; those
forms are never produced by the encoder and are not exercised here.) -/
def pyInt (s : List Nat) : Option Int :=
  match s with
  | [] => none
  | b :: rest =>
    if b = 43 then (parseDigits rest).map Int.ofNat
    else if b = 45 then (parseDigits rest).map (fun n => -(Int.ofNat n))
    else (parseDigits (b :: rest)).map Int.ofNat

/-- Python `data.find(bytes([b]))`: index of the first occurrence of the
byte `b`, `none` standing for Python's `-1`. -/
def findByte (b : Nat) : List Nat → Option Nat
  | [] => none
  | c :: cs => if c = b then some 0 else (findByte b cs).map (· + 1)

/-- Python bytes comparison `a <= b` (lexicographic byte order), as used
by `sorted` on dictionary keys. -/
def bytesLe : List Nat → List Nat → Bool
  | [], _ => true
  | _ :: _, [] => false
  | a :: as, b :: bs =>
    if a < b then true else if b < a then false else bytesLe as bs

/-- Ordered insertion of a key/value pair by `bytesLe` on the key. -/
def insertPair {α : Type} (p : List Nat × α) :
    List (List Nat × α) → List (List Nat × α)
  | [] => [p]
  | q :: qs => if bytesLe p.1 q.1 then p :: q :: qs else q :: insertPair p qs

/-- Models Python `sorted(d.items())` on a dict with pairwise-distinct
byte-string keys: insertion sort by lexicographic key order.  (Python
compares the full `(key, value)` tuples, but with distinct keys the
value components are never reached.) -/
def sortPairs {α : Type} : List (List Nat × α) → List (List Nat × α)
  | [] => []
  | p :: ps => insertPair p (sortPairs ps)

theorem sizeOf_insertPair {α : Type} [SizeOf α] (p : List Nat × α)
    (l : List (List Nat × α)) :
    sizeOf (insertPair p l) = sizeOf (p :: l) := by
  induction l with
  | nil => simp [insertPair]
  | cons q qs ih =>
    simp only [insertPair]
    split
    · rfl
    · simp only [List.cons.sizeOf_spec] at *
      omega

theorem sizeOf_sortPairs {α : Type} [SizeOf α] (l : List (List Nat × α)) :
    sizeOf (sortPairs l) = sizeOf l := by
  induction l with
  | nil => rfl
  | cons p ps ih =>
    simp only [sortPairs, sizeOf_insertPair, List.cons.sizeOf_spec]
    omega

/-- The dynamically-typed tree of bencoded values: the four kinds the
codec supports (`src/bencode.py`).  Dictionaries are association lists
in Python-dict insertion order. -/
inductive Bencode where
  | int : Int → Bencode
  | str : List Nat → Bencode
  | list : List Bencode → Bencode
  | dict : List (List Nat × Bencode) → Bencode

/-- Wire form of a byte-string: `<decimal length>:<raw bytes>`. -/
def encodeStr (s : List Nat) : List Nat :=
  natToDigits s.length ++ 58 :: s

mutual
/-- Models `bencode.encode`: deterministic encoder.  Integers become
`i<str(n)>e`, byte-strings `<len>:<bytes>`, lists `l…e`, dictionaries
`d…e` with entries emitted in sorted key order (`sorted(data.items())`). -/
def encode : Bencode → List Nat
  | .int n => 105 :: (intToBytes n ++ [101])
  | .str s => encodeStr s
  | .list l => 108 :: (encodeList l ++ [101])
  | .dict d => 100 :: (encodeEntries (sortPairs d) ++ [101])
termination_by v => sizeOf v
decreasing_by all_goals (simp [sizeOf_sortPairs]; try omega)

/-- Concatenation of the encodings of a list's elements. -/
def encodeList : List Bencode → List Nat
  | [] => []
  | v :: vs => encode v ++ encodeList vs
termination_by l => sizeOf l
decreasing_by all_goals (simp; try omega)

/-- Concatenation of `encode(k) ++ encode(v)` over dictionary entries. -/
def encodeEntries : List (List Nat × Bencode) → List Nat
  | [] => []
  | (k, v) :: rest => encodeStr k ++ (encode v ++ encodeEntries rest)
termination_by l => sizeOf l
decreasing_by all_goals (simp; try omega)
end

mutual
/-- Well-formedness of a value for the codec ("legal" in the spec's
sense): byte-strings have byte values below 256, and every dictionary
has pairwise-distinct byte-string keys (automatic for a Python dict). -/
def legal : Bencode → Bool
  | .int _ => true
  | .str s => s.all (· < 256)
  | .list l => legalList l
  | .dict d => legalEntries d
termination_by v => sizeOf v

def legalList : List Bencode → Bool
  | [] => true
  | v :: vs => legal v && legalList vs
termination_by l => sizeOf l

def legalEntries : List (List Nat × Bencode) → Bool
  | [] => true
  | (k, v) :: rest =>
    k.all (· < 256) && (rest.map Prod.fst).all (fun k' => k' ≠ k)
      && legal v && legalEntries rest
termination_by l => sizeOf l
end

mutual
/-- The canonical form a value assumes after `decode ∘ encode`: every
dictionary node ends up with its entries in sorted key order. -/
def canon : Bencode → Bencode
  | .int n => .int n
  | .str s => .str s
  | .list l => .list (canonList l)
  | .dict d => .dict (canonEntries (sortPairs d))
termination_by v => sizeOf v
decreasing_by all_goals (simp [sizeOf_sortPairs]; try omega)

def canonList : List Bencode → List Bencode
  | [] => []
  | v :: vs => canon v :: canonList vs
termination_by l => sizeOf l
decreasing_by all_goals (simp; try omega)

def canonEntries : List (List Nat × Bencode) → List (List Nat × Bencode)
  | [] => []
  | (k, v) :: rest => (k, canon v) :: canonEntries rest
termination_by l => sizeOf l
decreasing_by all_goals (simp; try omega)
end

/-- Models `bencode.decode_int`: finds the first `e`, feeds the bytes between
`i` and `e` to Python `int`, and reports `end_index + 1` bytes consumed. -/
def decodeInt (data : List Nat) : Option (Bencode × Nat) :=
  match findByte 101 data with
  | none => none
  | some endIdx =>
    match pyInt ((data.take endIdx).drop 1) with
    | none => none
    | some n => some (.int n, endIdx + 1)

/-- Models `bencode.decode_string`: finds the first `:`, parses the declared
length with Python `int`, and slices that many bytes.  A negative
declared length (reachable only through malformed dictionary keys,
where Python's slice semantics degenerate) is modelled as failure. -/
def decodeStringRaw (data : List Nat) : Option (List Nat × Nat) :=
  match findByte 58 data with
  | none => none
  | some colonIdx =>
    match pyInt (data.take colonIdx) with
    | none => none
    | some len =>
      if len < 0 then none
      else some ((data.drop (colonIdx + 1)).take len.toNat,
        colonIdx + 1 + len.toNat)

mutual
/-- Models `bencode.decode_recursive`, fuelled: dispatches on the first byte
(`i`, `l`, `d`, digit) and otherwise fails, returning the decoded value
and the number of bytes consumed. -/
def decodeRec : Nat → List Nat → Option (Bencode × Nat)
  | 0, _ => none
  | fuel + 1, data =>
    match data with
    | 105 :: _ => decodeInt data
    | 108 :: _ =>
      (decodeListAux fuel (data.drop 1)).map
        (fun p => (Bencode.list p.1, p.2 + 1))
    | 100 :: _ =>
      (decodeDictAux fuel (data.drop 1) []).map
        (fun p => (Bencode.dict p.1, p.2 + 1))
    | b :: _ =>
      if isDigit b then
        (decodeStringRaw data).map (fun p => (Bencode.str p.1, p.2))
      else none
    | [] => none

/-- The `while data[i:i+1] != b"e"` loop of `decode_list`, expressed on
the suffix after the leading `l`; returns the items and the bytes
consumed including the closing `e`. -/
def decodeListAux : Nat → List Nat → Option (List Bencode × Nat)
  | 0, _ => none
  | fuel + 1, rem =>
    if rem.take 1 = [101] then some ([], 1)
    else
      match decodeRec fuel rem with
      | none => none
      | some (item, n) =>
        match decodeListAux fuel (rem.drop n) with
        | none => none
        | some (items, c) => some (item :: items, n + c)

/-- The loop of `decode_dict`, on the suffix after the leading `d`; the
accumulator is the Python dict being built with `d[key] = value`. -/
def decodeDictAux : Nat → List Nat → List (List Nat × Bencode) →
    Option (List (List Nat × Bencode) × Nat)
  | 0, _, _ => none
  | fuel + 1, rem, acc =>
    if rem.take 1 = [101] then some (acc, 1)
    else
      match decodeStringRaw rem with
      | none => none
      | some (key, klen) =>
        match decodeRec fuel (rem.drop klen) with
        | none => none
        | some (v, vlen) =>
          match decodeDictAux fuel (rem.drop (klen + vlen))
              (assocInsert key v acc) with
          | none => none
          | some (d, c) => some (d, klen + vlen + c)
end

/-- Models `bencode.decode`: decodes and then rejects trailing bytes
(`length != len(bencoded_data)`).  `none` stands for the `ValueError`
raised on malformed data.  The fuel `wire.length + 1` dominates the
recursion depth of every successful parse (proved below for canonical
encodings). -/
def decode (wire : List Nat) : Option Bencode :=
  match decodeRec (wire.length + 1) wire with
  | none => none
  | some (v, n) => if n = wire.length then some v else none

mutual
/-- Fuel sufficient for `decodeRec` to parse the canonical encoding of a
value (dominates the recursion structure of the decoder). -/
def fcost : Bencode → Nat
  | .int _ => 1
  | .str _ => 1
  | .list l => 1 + fcostList l
  | .dict d => 2 + fcostEntries d
termination_by v => sizeOf v

def fcostList : List Bencode → Nat
  | [] => 1
  | v :: vs => 1 + max (fcost v) (fcostList vs)
termination_by l => sizeOf l

def fcostEntries : List (List Nat × Bencode) → Nat
  | [] => 0
  | (_, v) :: rest => 1 + fcost v + fcostEntries rest
termination_by l => sizeOf l
end

theorem sizeOf_assocLookup {κ α : Type} [DecidableEq κ] [SizeOf κ] [SizeOf α]
    {k : κ} {l : List (κ × α)} {v : α} (h : assocLookup k l = some v) :
    sizeOf v < sizeOf l := by
  induction l with
  | nil => simp [assocLookup] at h
  | cons p rest ih =>
    obtain ⟨k', v'⟩ := p
    simp only [assocLookup] at h
    split at h
    · obtain rfl : v' = v := by simpa using h
      simp
      omega
    · have := ih h
      simp
      omega

mutual
/-- Models Python `==` on decoded bencode values: integers and
byte-strings compare by value, lists pointwise, and dictionaries as
finite maps (equal size, and every key of the left dict present in the
right with `==` values), exactly as CPython compares dicts. -/
def pyEq : Bencode → Bencode → Bool
  | .int a, .int b => a == b
  | .str a, .str b => a == b
  | .list a, .list b => pyEqList a b
  | .dict a, .dict b => (a.length == b.length) && pyEqEntries a b
  | _, _ => false
termination_by a b => sizeOf a + sizeOf b
decreasing_by all_goals (simp; omega)

def pyEqList : List Bencode → List Bencode → Bool
  | [], [] => true
  | x :: xs, y :: ys => pyEq x y && pyEqList xs ys
  | _, _ => false
termination_by a b => sizeOf a + sizeOf b
decreasing_by all_goals (simp; omega)

def pyEqEntries : List (List Nat × Bencode) → List (List Nat × Bencode) →
    Bool
  | [], _ => true
  | (k, v) :: rest, b =>
    (match h : assocLookup k b with
     | some w => pyEq v w
     | none => false) && pyEqEntries rest b
termination_by a b => sizeOf a + sizeOf b
decreasing_by
  all_goals
    first
    | (have h1 := sizeOf_assocLookup h
       simp
       try omega)
    | (simp
       try omega)
end

/-! ## The metainfo parser (`src/torrent.py`) -/

/-- ASCII bytes of the Python byte literal `b"info"`. -/
def infoKey : List Nat := [105, 110, 102, 111]

/-- ASCII bytes of `b"announce"`. -/
def announceKey : List Nat := [97, 110, 110, 111, 117, 110, 99, 101]

/-- ASCII bytes of `b"piece length"`. -/
def pieceLengthKey : List Nat :=
  [112, 105, 101, 99, 101, 32, 108, 101, 110, 103, 116, 104]

/-- ASCII bytes of `b"pieces"`. -/
def piecesKey : List Nat := [112, 105, 101, 99, 101, 115]

/-- ASCII bytes of `b"name"`. -/
def nameKey : List Nat := [110, 97, 109, 101]

/-- ASCII bytes of `b"files"`. -/
def filesKey : List Nat := [102, 105, 108, 101, 115]

/-- ASCII bytes of `b"length"`. -/
def lengthKey : List Nat := [108, 101, 110, 103, 116, 104]

/-- ASCII bytes of `b"path"`. -/
def pathKey : List Nat := [112, 97, 116, 104]

/-- Projection of a bencode value to a byte-string (Python duck typing:
using a non-bytes value where bytes are required raises). -/
def asStr : Bencode → Option (List Nat)
  | .str s => some s
  | _ => none

/-- Projection to an integer. -/
def asInt : Bencode → Option Int
  | .int n => some n
  | _ => none

/-- Projection to a list. -/
def asList : Bencode → Option (List Bencode)
  | .list l => some l
  | _ => none

/-- Projection to a dictionary. -/
def asDict : Bencode → Option (List (List Nat × Bencode))
  | .dict d => some d
  | _ => none

/-- Models `bytes.decode("utf-8")` restricted to ASCII content; inputs
with bytes ≥ 128 (multi-byte UTF-8, which no claim exercises) are
modelled as failure.  For ASCII inputs this is exactly Python. -/
def pyAsciiDecode (s : List Nat) : Option (List Nat) :=
  if s.all (· < 128) then some s else none

/-- Models `Torrent._split_pieces_hashes`: the blob is cut into
consecutive 20-byte slices, `[pieces_blob[i : i + 20] for i in
range(0, len(pieces_blob), 20)]`; a trailing remainder shorter than 20
bytes becomes a final short chunk (Python slicing clamps). -/
def splitPiecesHashes : List Nat → List (List Nat)
  | [] => []
  | b :: rest =>
    (b :: rest).take 20 :: splitPiecesHashes ((b :: rest).drop 20)
termination_by l => l.length
decreasing_by simp; omega

/-- The attributes `Torrent.__init__` computes.  `infoHashInput` is the
byte sequence fed to `hashlib.sha1` (namely `encode(info)`); keeping the
hash input rather than a concrete digest keeps SHA-1 abstract.
`pieceLength` and a single-file `totalSize` are stored as raw bencode
values exactly as Python stores whatever the dictionary held. -/
structure TorrentMeta where
  announce : List Nat
  infoHashInput : List Nat
  pieceLength : Bencode
  piecesHashes : List (List Nat)
  name : List Nat
  files : List (List (List Nat) × Int)
  totalSize : Bencode

/-- Parses the decoded `path` list of a multi-file entry
(`[p.decode("utf-8") for p in f[b"path"]]`). -/
def parsePathParts : List Bencode → Option (List (List Nat))
  | [] => some []
  | .str s :: rest =>
    match pyAsciiDecode s, parsePathParts rest with
    | some s', some rest' => some (s' :: rest')
    | _, _ => none
  | _ => none

/-- Parses one entry of the `files` list: a dictionary with `path`
(list of byte-strings) and `length` (integer). -/
def parseFileEntry (v : Bencode) : Option (List (List Nat) × Int) :=
  match asDict v with
  | none => none
  | some f =>
    match assocLookup pathKey f, assocLookup lengthKey f with
    | some (.list ps), some (.int n) =>
      match parsePathParts ps with
      | some parts => some (parts, n)
      | none => none
    | _, _ => none

/-- Parses the whole `files` list. -/
def parseFiles : List Bencode → Option (List (List (List Nat) × Int))
  | [] => some []
  | v :: rest =>
    match parseFileEntry v, parseFiles rest with
    | some e, some es => some (e :: es)
    | _, _ => none

/-- Models `Torrent.__init__` applied to the raw metainfo file bytes:
decode, read `info` and `announce`, record the infohash input
`encode(info)`, read `piece length`, split `pieces` into 20-byte
chunks, decode `name`, and read the single-file (`length`) or
multi-file (`files`) layout.  `none` models an uncaught Python
exception (KeyError / TypeError / decode failure). -/
def torrentParse (wire : List Nat) : Option TorrentMeta :=
  (decode wire).bind fun meta =>
  (asDict meta).bind fun m =>
  (assocLookup infoKey m).bind fun info =>
  (asDict info).bind fun infoD =>
  ((assocLookup announceKey m).bind asStr).bind fun ann =>
  (pyAsciiDecode ann).bind fun annStr =>
  (assocLookup pieceLengthKey infoD).bind fun plen =>
  ((assocLookup piecesKey infoD).bind asStr).bind fun blob =>
  ((assocLookup nameKey infoD).bind asStr).bind fun nm =>
  (pyAsciiDecode nm).bind fun nmStr =>
  match assocLookup filesKey infoD with
  | some fv =>
    (asList fv).bind fun fl =>
    (parseFiles fl).bind fun fs =>
    some { announce := annStr, infoHashInput := encode info,
           pieceLength := plen, piecesHashes := splitPiecesHashes blob,
           name := nmStr, files := fs,
           totalSize := .int (fs.foldl (fun a p => a + p.2) 0) }
  | none =>
    (assocLookup lengthKey infoD).bind fun lv =>
    some { announce := annStr, infoHashInput := encode info,
           pieceLength := plen, piecesHashes := splitPiecesHashes blob,
           name := nmStr, files := [], totalSize := lv }

/-! ## The piece manager (`src/piece_manager.py`) -/

/-- The standard request block size, `BLOCK_SIZE = 2**14`. -/
def BLOCK_SIZE : Nat := 16384

/-- The block request timeout in seconds, `REQUEST_TIMEOUT = 5`. -/
def REQUEST_TIMEOUT : Nat := 5

/-- The torrent attributes the piece manager reads, with the SHA-1
digest function carried as an abstract parameter (its internals are
irrelevant to every claim). -/
structure TorrentCtx where
  numPieces : Nat
  pieceLength : Nat
  totalSize : Nat
  piecesHashes : List (List Nat)
  sha1 : List Nat → List Nat

/-- The mutable attributes of one `Piece`. -/
structure PieceSt where
  index : Nat
  length : Nat
  hashValue : List Nat
  blocks : List Bool
  requestedBlocks : List Nat
  data : List Nat
  numBlocksReceived : Nat
deriving DecidableEq

/-- One pre-allocated file stripe `{handle, start, end}`, with the
handle replaced by the file's current byte contents (writing through
the handle is modelled as updating `content`).  `stop` is the record's
`end` field (`end` is reserved in Lean). -/
structure FileRec where
  start : Nat
  stop : Nat
  content : List Nat
deriving DecidableEq

/-- The mutable attributes of the `PieceManager`. -/
structure PMState where
  havePieces : List Bool
  pending : List (Nat × PieceSt)
  missing : List Nat
  totalDownloaded : Nat
  files : List FileRec
deriving DecidableEq

/-- Models `math.ceil(length / BLOCK_SIZE)` (float division, exact at
these magnitudes). -/
def numBlocks (length : Nat) : Nat := (length + BLOCK_SIZE - 1) / BLOCK_SIZE

/-- The `Piece.__init__` constructor. -/
def mkPiece (index length : Nat) (hash : List Nat) : PieceSt :=
  { index := index, length := length, hashValue := hash,
    blocks := List.replicate (numBlocks length) false,
    requestedBlocks := List.replicate (numBlocks length) 0,
    data := List.replicate length 0,
    numBlocksReceived := 0 }

/-- Python `buf[start : start + len(b)] = b` on a bytearray: the slice
is replaced by the new bytes (exact Python semantics for `start ≥ 0`,
including the clamping cases). -/
def pySliceAssign (buf : List Nat) (start : Nat) (b : List Nat) : List Nat :=
  buf.take start ++ b ++ buf.drop (start + b.length)

/-- Models `Piece.add_block`.  The in-buffer write offset is
`offset % self.length`, exactly as in the source (the spec notes this
oddity; it coincides with `offset` for well-formed blocks).  A piece of
length 0 has no blocks, so the guard in `block_received` keeps this
total function faithful. -/
def addBlock (offset : Nat) (blockData : List Nat) (p : PieceSt) : PieceSt :=
  let blockIndex := offset / BLOCK_SIZE
  if p.blocks.getD blockIndex false then p
  else
    { p with
      blocks := p.blocks.set blockIndex true,
      requestedBlocks := p.requestedBlocks.set blockIndex 0,
      data := pySliceAssign p.data (offset % p.length) blockData,
      numBlocksReceived := p.numBlocksReceived + 1 }

/-- Models `Piece.mark_block_requested` (`int(time.time())` is the
integer second `now`). -/
def markBlockRequested (now : Nat) (blockIndex : Nat) (p : PieceSt) : PieceSt :=
  { p with requestedBlocks := p.requestedBlocks.set blockIndex now }

/-- Models `Piece.is_block_available`. -/
def isBlockAvailable (now : Nat) (p : PieceSt) (blockIndex : Nat) : Bool :=
  if p.blocks.getD blockIndex false then false
  else
    decide (p.requestedBlocks.getD blockIndex 0 = 0) ||
      decide (now - p.requestedBlocks.getD blockIndex 0 > REQUEST_TIMEOUT)

/-- Models `Piece.get_timed_out_blocks`: block indices, in increasing
order, that were requested (timestamp nonzero), not received, and
requested more than `REQUEST_TIMEOUT` seconds ago. -/
def getTimedOutBlocks (now : Nat) (p : PieceSt) : List Nat :=
  (List.range p.requestedBlocks.length).filter (fun i =>
    decide (p.requestedBlocks.getD i 0 ≠ 0) &&
      !(p.blocks.getD i false) &&
      decide (now - p.requestedBlocks.getD i 0 > REQUEST_TIMEOUT))

/-- Models `Piece.is_complete`. -/
def pieceComplete (p : PieceSt) : Bool := p.blocks.all (fun b => b)

/-- Models `Piece.is_hash_valid` through the abstract digest. -/
def pieceHashValid (T : TorrentCtx) (p : PieceSt) : Bool :=
  T.sha1 p.data == p.hashValue

/-- Models `PieceManager._get_piece_length` (the Python `x or y` idiom:
the remainder if nonzero, else the full piece length).  Python would
raise on `piece_length = 0`; all uses assume a positive piece length. -/
def getPieceLength (T : TorrentCtx) (i : Nat) : Nat :=
  if i = T.numPieces - 1 then
    if T.totalSize % T.pieceLength = 0 then T.pieceLength
    else T.totalSize % T.pieceLength
  else T.pieceLength

/-- Models `PieceManager._get_file_for_offset`: the first stripe whose
`[start, end)` range contains the offset, returned together with its
position in the stripe table (the position stands for the handle
identity). -/
def getFileForOffset : List FileRec → Nat → Option (Nat × FileRec)
  | [], _ => none
  | f :: rest, off =>
    if f.start ≤ off ∧ off < f.stop then some (0, f)
    else (getFileForOffset rest off).map (fun p => (p.1 + 1, p.2))

theorem getFileForOffset_spec : ∀ (files : List FileRec) (off idx : Nat)
    (f : FileRec), getFileForOffset files off = some (idx, f) →
    files.get? idx = some f ∧ f.start ≤ off ∧ off < f.stop := by
  intro files
  induction files with
  | nil => intro off idx f h; simp [getFileForOffset] at h
  | cons g rest ih =>
    intro off idx f h
    rw [getFileForOffset] at h
    split at h
    · next hc =>
      obtain ⟨rfl, rfl⟩ : 0 = idx ∧ g = f := by simpa using h
      simpa using hc
    · rcases hrec : getFileForOffset rest off with _ | ⟨idx', f'⟩
      · rw [hrec] at h; simp at h
      · rw [hrec] at h
        obtain ⟨rfl, rfl⟩ : idx' + 1 = idx ∧ f' = f := by
          simpa using h
        have h2 := ih off idx' f' hrec
        simpa using h2

/-- The `while data_ptr < piece.length` loop of
`PieceManager._write_piece_to_disk`, with `data_ptr` and the running
global `piece_offset` as explicit arguments. -/
def writePieceLoop (files : List FileRec) (p : PieceSt)
    (dataPtr pieceOffset : Nat) : List FileRec :=
  if h : dataPtr < p.length then
    match hf : getFileForOffset files pieceOffset with
    | none => files
    | some (idx, f) =>
      let writePos := pieceOffset - f.start
      let toWrite := min (p.length - dataPtr) (f.stop - pieceOffset)
      let newContent := pySliceAssign f.content writePos
        ((p.data.drop dataPtr).take toWrite)
      let files2 := files.set idx { f with content := newContent }
      writePieceLoop files2 p (dataPtr + toWrite) (pieceOffset + toWrite)
  else files
termination_by p.length - dataPtr
decreasing_by
  have hspec := getFileForOffset_spec files pieceOffset idx f hf
  omega

/-- Models `PieceManager._write_piece_to_disk`. -/
def writePieceToDisk (T : TorrentCtx) (files : List FileRec)
    (p : PieceSt) : List FileRec :=
  writePieceLoop files p 0 (p.index * T.pieceLength)

/-- The `PieceManager.__init__` state (file setup is modelled by taking
the pre-allocated stripe table as an argument). -/
def initState (T : TorrentCtx) (files : List FileRec) : PMState :=
  { havePieces := List.replicate T.numPieces false,
    pending := [],
    missing := List.range T.numPieces,
    totalDownloaded := 0,
    files := files }

/-- Phase 1 of `get_next_request`: scan the pending dict in insertion
order; at the first piece with a timed-out block, mark its first
timed-out block requested now and return `(index, offset, length)`
together with the updated dict. -/
def phase1 (T : TorrentCtx) (now : Nat) :
    List (Nat × PieceSt) → Option ((Nat × Nat × Nat) × List (Nat × PieceSt))
  | [] => none
  | (i, p) :: rest =>
    match getTimedOutBlocks now p with
    | [] => (phase1 T now rest).map (fun r => (r.1, (i, p) :: r.2))
    | b :: _ =>
      some ((i, b * BLOCK_SIZE,
        min BLOCK_SIZE (getPieceLength T i - b * BLOCK_SIZE)),
        (i, markBlockRequested now b p) :: rest)

/-- Phase 2 of `get_next_request`: walk the shuffled missing list; for
each index create a pending `Piece` on first touch, then return its
first available block if any, else keep going. -/
def phase2 (T : TorrentCtx) (now : Nat) :
    List Nat → List (Nat × PieceSt) →
    Option (Nat × Nat × Nat) × List (Nat × PieceSt)
  | [], pending => (none, pending)
  | i :: rest, pending =>
    let plen := getPieceLength T i
    let pending1 :=
      match assocLookup i pending with
      | some _ => pending
      | none =>
        assocInsert i (mkPiece i plen (T.piecesHashes.getD i [])) pending
    match assocLookup i pending1 with
    | none => (none, pending1)
    | some p =>
      match (List.range p.blocks.length).find?
          (fun b => isBlockAvailable now p b) with
      | some b =>
        (some (i, b * BLOCK_SIZE, min BLOCK_SIZE (plen - b * BLOCK_SIZE)),
          assocInsert i (markBlockRequested now b p) pending1)
      | none => phase2 T now rest pending1

/-- Models `PieceManager.get_next_request`.  `shuffled` is the oracle
outcome of `random.shuffle` on a copy of `missing_pieces`, and `now`
the oracle `time.time()` in integer seconds. -/
def getNextRequest (T : TorrentCtx) (shuffled : List Nat) (now : Nat)
    (s : PMState) : Option (Nat × Nat × Nat) × PMState :=
  match phase1 T now s.pending with
  | some (r, pending') => (some r, { s with pending := pending' })
  | none =>
    let r2 := phase2 T now shuffled s.pending
    (r2.1, { s with pending := r2.2 })

/-- Models `PieceManager.block_received`.  `none` stands for an uncaught
Python exception (an out-of-range block index); the `Bool` is the
method's return value. -/
def blockReceived (T : TorrentCtx) (i off : Nat) (data : List Nat)
    (s : PMState) : Option (Bool × PMState) :=
  match assocLookup i s.pending with
  | none => some (false, s)
  | some p =>
    match p.blocks.get? (off / BLOCK_SIZE) with
    | none => none
    | some true => some (true, s)
    | some false =>
      let p1 := addBlock off data p
      let pending1 := assocInsert i p1 s.pending
      let total1 := s.totalDownloaded + data.length
      let s1 := { s with pending := pending1, totalDownloaded := total1 }
      if pieceComplete p1 then
        if pieceHashValid T p1 then
          if i < s1.havePieces.length then
            if i ∈ s1.missing then
              let files2 := writePieceToDisk T s1.files p1
              let have2 := s1.havePieces.set i true
              let missing2 := s1.missing.erase i
              let pending2 := assocRemove i s1.pending
              some (true, { s1 with files := files2, havePieces := have2, missing := missing2, pending := pending2 })
            else none
          else none
        else some (true, { s1 with pending := assocRemove i s1.pending })
      else some (true, s1)

/-- The states of the piece manager reachable from construction by any
interleaving of `get_next_request` and `block_received` calls, with the
shuffle outcome, clock readings, and message contents arbitrary. -/
inductive Reachable (T : TorrentCtx) : PMState → Prop
  | init : ∀ files, Reachable T (initState T files)
  | gnr : ∀ {s : PMState} (shuffled : List Nat) (now : Nat),
      Reachable T s → shuffled.Perm s.missing →
      Reachable T (getNextRequest T shuffled now s).2
  | recv : ∀ {s s' : PMState} (i off : Nat) (data : List Nat) (ok : Bool),
      Reachable T s → blockReceived T i off data s = some (ok, s') →
      Reachable T s'

/-- The inductive invariant of the piece manager state: `have` has one
slot per piece, `missing` is duplicate-free, `missing` holds exactly
the piece indices not yet `have`, the pending dict has duplicate-free
keys, and every pending key is still missing. -/
def PMInv (T : TorrentCtx) (s : PMState) : Prop :=
  s.havePieces.length = T.numPieces ∧
  s.missing.Nodup ∧
  (∀ i, i ∈ s.missing ↔ (i < T.numPieces ∧ s.havePieces.getD i false = false)) ∧
  (s.pending.map Prod.fst).Nodup ∧
  (∀ k ∈ s.pending.map Prod.fst, k ∈ s.missing)

/-- A two-piece demo torrent for exercising the request scheduler. -/
def demoT : TorrentCtx :=
  { numPieces := 2, pieceLength := 16384, totalSize := 32768,
    piecesHashes := [[], []], sha1 := fun _ => [] }

/-- The manager state after two `get_next_request` calls whose shuffle
oracles first touch piece 1 and then piece 0 (shuffles `[1, 0]` then
`[0, 1]`, both permutations of the missing list, at time 10): the
pending dict then holds piece 1 before piece 0 in insertion order. -/
def demoState : PMState :=
  (getNextRequest demoT [0, 1] 10
    (getNextRequest demoT [1, 0] 10 (initState demoT [])).2).2

/-- A one-block piece used by concrete scheduler examples. -/
def demoPiece : PieceSt :=
  { index := 0, length := 4, hashValue := [9], blocks := [false],
    requestedBlocks := [10], data := [0, 0, 0, 0], numBlocksReceived := 0 }

/-- A minimal manager state with `demoPiece` pending. -/
def demoRecvState : PMState :=
  { havePieces := [false], pending := [(0, demoPiece)], missing := [0],
    totalDownloaded := 0, files := [] }


/-! ## Tracker: the announce round-trip of tracker.py -/

/-- Outcome of the HTTP GET inside `Tracker.get_peers`: either one of
the exceptions the `except` clause catches (`aiohttp.ClientError` or
`asyncio.TimeoutError`), or a response with a status code and a body. -/
inductive HttpOutcome where
  | netError : HttpOutcome
  | ok : Nat → List Nat → HttpOutcome

/-- Models `Tracker._parse_peers` on a compact peers blob: 6 bytes per
peer, 4 for the IP and 2 for the big-endian port.  A trailing chunk of
1–5 bytes makes `socket.inet_ntoa` or `struct.unpack` raise, modelled
as `none`. -/
def parsePeers : List Nat → Option (List (List Nat × Nat))
  | [] => some []
  | b0 :: b1 :: b2 :: b3 :: b4 :: b5 :: rest =>
    (parsePeers rest).map (fun ps => ([b0, b1, b2, b3], b4 * 256 + b5) :: ps)
  | _ => none

/-- The key `b"peers"`. -/
def peersKey : List Nat := [112, 101, 101, 114, 115]

/-- The key `b"interval"`. -/
def intervalKey : List Nat := [105, 110, 116, 101, 114, 118, 97, 108]

/-- Python `d.get(k, dflt)` on a decoded dictionary. -/
def dictGet (d : List (List Nat × Bencode)) (k : List Nat)
    (dflt : Bencode) : Bencode :=
  match assocLookup k d with
  | some v => v
  | none => dflt

/-- Models `Tracker.get_peers` after URL construction, as a function of
the HTTP outcome.  `none` stands for an uncaught Python exception: the
`except` clause catches only `aiohttp.ClientError` and
`asyncio.TimeoutError`, so a bencode decode failure, a non-dictionary
tracker response, or a malformed peers value propagates out.  An empty
decoded list or dictionary under `b"peers"` slips through
`_parse_peers` (its loop body never runs); any other non-bytes value
raises inside the loop. -/
def getPeers (o : HttpOutcome) : Option (List (List Nat × Nat) × Bencode) :=
  match o with
  | .netError => some ([], .int 60)
  | .ok status body =>
    if status = 200 then
      match decode body with
      | some (.dict d) =>
        match dictGet d peersKey (.str []) with
        | .str bs =>
          (parsePeers bs).map (fun ps => (ps, dictGet d intervalKey (.int 60)))
        | .list [] => some ([], dictGet d intervalKey (.int 60))
        | .dict [] => some ([], dictGet d intervalKey (.int 60))
        | _ => none
      | _ => none
    else some ([], .int 60)


/-! ## Arithmetic facts about decimal printing and parsing -/

theorem natToDigits_ne_nil (n : Nat) : natToDigits n ≠ [] := by
  unfold natToDigits
  split <;> simp

theorem natToDigits_mem_digit {n b : Nat} (h : b ∈ natToDigits n) :
    48 ≤ b ∧ b ≤ 57 := by
  induction n using Nat.strong_induction_on with
  | _ n ih =>
    unfold natToDigits at h
    split at h
    · next hlt =>
      rw [List.mem_singleton] at h
      omega
    · next hge =>
      rcases List.mem_append.mp h with h' | h'
      · exact ih (n / 10) (Nat.div_lt_self (by omega) (by omega)) h'
      · rw [List.mem_singleton] at h'
        have := Nat.mod_lt n (y := 10) (by omega)
        omega

theorem digitsVal_snoc (l : List Nat) (d : Nat) :
    digitsVal (l ++ [d]) = digitsVal l * 10 + (d - 48) := by
  simp [digitsVal, List.foldl_append]

theorem digitsVal_natToDigits (n : Nat) : digitsVal (natToDigits n) = n := by
  induction n using Nat.strong_induction_on with
  | _ n ih =>
    unfold natToDigits
    split
    · next h => simp [digitsVal]
    · next h =>
      rw [digitsVal_snoc, ih (n / 10) (Nat.div_lt_self (by omega) (by omega))]
      omega

theorem parseDigits_natToDigits (n : Nat) :
    parseDigits (natToDigits n) = some n := by
  have hall : (natToDigits n).all isDigit = true := by
    rw [List.all_eq_true]
    intro b hb
    have := natToDigits_mem_digit hb
    simp [isDigit]
    omega
  simp [parseDigits, natToDigits_ne_nil, hall, digitsVal_natToDigits]

theorem pyInt_natToDigits (n : Nat) :
    pyInt (natToDigits n) = some (Int.ofNat n) := by
  rcases hd : natToDigits n with _ | ⟨b, rest⟩
  · exact absurd hd (natToDigits_ne_nil n)
  · have hb : 48 ≤ b ∧ b ≤ 57 := natToDigits_mem_digit (by rw [hd]; simp)
    have h43 : ¬ b = 43 := by omega
    have h45 : ¬ b = 45 := by omega
    simp only [pyInt, h43, h45, if_false]
    rw [← hd, parseDigits_natToDigits]
    rfl

theorem pyInt_intToBytes (n : Int) : pyInt (intToBytes n) = some n := by
  unfold intToBytes
  split
  · next h =>
    have h45 : pyInt (45 :: natToDigits n.natAbs)
        = (parseDigits (natToDigits n.natAbs)).map (fun m => -(Int.ofNat m)) := by
      norm_num [pyInt]
    rw [h45, parseDigits_natToDigits, Option.map_some']
    congr 1
    simp only [Int.ofNat_eq_coe]
    omega
  · next h =>
    rw [pyInt_natToDigits]
    congr 1
    simp only [Int.ofNat_eq_coe]
    omega

theorem intToBytes_mem_range {n : Int} {b : Nat} (h : b ∈ intToBytes n) :
    b = 45 ∨ (48 ≤ b ∧ b ≤ 57) := by
  unfold intToBytes at h
  split at h
  · rcases List.mem_cons.mp h with h' | h'
    · exact Or.inl h'
    · exact Or.inr (natToDigits_mem_digit h')
  · exact Or.inr (natToDigits_mem_digit h)

/-! ## Facts about `findByte` -/

theorem findByte_append {b : Nat} (pre rest : List Nat) (hb : b ∉ pre) :
    findByte b (pre ++ b :: rest) = some pre.length := by
  induction pre with
  | nil => simp [findByte]
  | cons c cs ih =>
    have hc : ¬ c = b := fun h => hb (by simp [h])
    have : b ∉ cs := fun h => hb (by simp [h])
    simp [findByte, hc, ih this]

/-! ## Decoding canonical encodings -/

theorem decodeStringRaw_encodeStr (s tail : List Nat) :
    decodeStringRaw (encodeStr s ++ tail) =
      some (s, (encodeStr s).length) := by
  have hcolon : (58 : Nat) ∉ natToDigits s.length := by
    intro h
    have := natToDigits_mem_digit h
    omega
  have h1 : findByte 58 (encodeStr s ++ tail) =
      some (natToDigits s.length).length := by
    unfold encodeStr
    rw [List.append_assoc, List.cons_append]
    exact findByte_append _ _ hcolon
  have h2 : (encodeStr s ++ tail).take (natToDigits s.length).length =
      natToDigits s.length := by
    unfold encodeStr
    rw [List.append_assoc, List.cons_append, List.take_left' rfl]
  have h3 : (encodeStr s ++ tail).drop ((natToDigits s.length).length + 1) =
      s ++ tail := by
    have he : encodeStr s ++ tail =
        (natToDigits s.length ++ [58]) ++ (s ++ tail) := by
      simp [encodeStr]
    rw [he, List.drop_left' (by simp)]
  have h4 : ¬ ((s.length : Int) < 0) := by omega
  have h5 : (encodeStr s).length = (natToDigits s.length).length + 1 + s.length := by
    simp [encodeStr]
    omega
  simp [decodeStringRaw, h1, h2, h3, h4, h5, pyInt_natToDigits, Int.ofNat_eq_coe,
    List.take_left]
  try omega

theorem decodeInt_encode (n : Int) (tail : List Nat) :
    decodeInt ((105 :: (intToBytes n ++ [101])) ++ tail) =
      some (.int n, (intToBytes n).length + 2) := by
  have hne : (101 : Nat) ∉ 105 :: intToBytes n := by
    intro h
    rcases List.mem_cons.mp h with h' | h'
    · omega
    · rcases intToBytes_mem_range h' with h'' | h'' <;> omega
  have hfind : findByte 101 (105 :: (intToBytes n ++ 101 :: tail)) =
      some ((intToBytes n).length + 1) := by
    have h := findByte_append (105 :: intToBytes n) tail hne
    simpa using h
  have htake : List.take ((intToBytes n).length + 1)
      (105 :: (intToBytes n ++ 101 :: tail)) = 105 :: intToBytes n := by
    rw [List.take_succ_cons, List.take_left' rfl]
  have harr : (105 :: (intToBytes n ++ [101])) ++ tail =
      105 :: (intToBytes n ++ 101 :: tail) := by simp
  rw [harr]
  simp [decodeInt, hfind, htake, pyInt_intToBytes]

/-! ## Permutation and membership facts about key sorting -/

theorem insertPair_perm {α : Type} (p : List Nat × α)
    (l : List (List Nat × α)) : (insertPair p l).Perm (p :: l) := by
  induction l with
  | nil => simp [insertPair]
  | cons q qs ih =>
    simp only [insertPair]
    split
    · exact List.Perm.refl _
    · exact (List.Perm.cons q ih).trans (List.Perm.swap p q qs)

theorem sortPairs_perm {α : Type} (l : List (List Nat × α)) :
    (sortPairs l).Perm l := by
  induction l with
  | nil => simp [sortPairs]
  | cons p ps ih =>
    exact (insertPair_perm p (sortPairs ps)).trans (List.Perm.cons p ih)

theorem mem_sortPairs {α : Type} {p : List Nat × α}
    {l : List (List Nat × α)} (h : p ∈ sortPairs l) : p ∈ l :=
  (sortPairs_perm l).mem_iff.mp h

theorem fcostEntries_insertPair (p : List Nat × Bencode)
    (l : List (List Nat × Bencode)) :
    fcostEntries (insertPair p l) = 1 + fcost p.2 + fcostEntries l := by
  obtain ⟨k, v⟩ := p
  induction l with
  | nil => simp [insertPair, fcostEntries]
  | cons q qs ih =>
    obtain ⟨k', v'⟩ := q
    simp only [insertPair]
    split
    · simp [fcostEntries]
    · simp [fcostEntries, ih]
      omega

theorem fcostEntries_sortPairs (l : List (List Nat × Bencode)) :
    fcostEntries (sortPairs l) = fcostEntries l := by
  induction l with
  | nil => rfl
  | cons p ps ih =>
    obtain ⟨k, v⟩ := p
    rw [sortPairs, fcostEntries_insertPair, ih]
    simp [fcostEntries]

/-! ## Facts extracted from `legal` -/

theorem legalList_values {l : List Bencode} (h : legalList l = true) :
    ∀ v ∈ l, legal v = true := by
  induction l with
  | nil => simp
  | cons x xs ih =>
    rw [legalList] at h
    rcases Bool.and_eq_true_iff.mp h with ⟨hx, hxs⟩
    intro v hv
    rcases List.mem_cons.mp hv with h' | h'
    · rw [h']; exact hx
    · exact ih hxs v h'

theorem legalEntries_values {es : List (List Nat × Bencode)}
    (h : legalEntries es = true) : ∀ p ∈ es, legal p.2 = true := by
  induction es with
  | nil => simp
  | cons p ps ih =>
    obtain ⟨k, v⟩ := p
    rw [legalEntries] at h
    rcases Bool.and_eq_true_iff.mp h with ⟨h', hrest⟩
    rcases Bool.and_eq_true_iff.mp h' with ⟨_, hv⟩
    intro q hq
    rcases List.mem_cons.mp hq with h'' | h''
    · rw [h'']; exact hv
    · exact ih hrest q h''

theorem legalEntries_pairwise {es : List (List Nat × Bencode)}
    (h : legalEntries es = true) :
    es.Pairwise (fun p q => p.1 ≠ q.1) := by
  induction es with
  | nil => simp
  | cons p ps ih =>
    obtain ⟨k, v⟩ := p
    rw [legalEntries] at h
    rcases Bool.and_eq_true_iff.mp h with ⟨h', hrest⟩
    rcases Bool.and_eq_true_iff.mp h' with ⟨h'', _⟩
    rcases Bool.and_eq_true_iff.mp h'' with ⟨_, hkeys⟩
    refine List.Pairwise.cons ?_ (ih hrest)
    intro q hq hkq
    rw [List.all_eq_true] at hkeys
    have h3 := hkeys q.1 (List.mem_map_of_mem Prod.fst hq)
    simp at h3 hkq
    exact h3 hkq.symm

/-! ## Association-list insertion with fresh keys -/

theorem assocInsert_fresh {α : Type} (k : List Nat) (v : α)
    (l : List (List Nat × α)) (h : ∀ q ∈ l, q.1 ≠ k) :
    assocInsert k v l = l ++ [(k, v)] := by
  induction l with
  | nil => rfl
  | cons q qs ih =>
    obtain ⟨k', v'⟩ := q
    have hk : ¬ k' = k := h (k', v') (by simp)
    simp only [assocInsert, hk, if_false, List.cons_append]
    rw [ih (fun q hq => h q (List.mem_cons_of_mem _ hq))]

theorem foldl_assocInsert_canon (es : List (List Nat × Bencode))
    (acc : List (List Nat × Bencode))
    (hfresh : ∀ p ∈ es, ∀ q ∈ acc, q.1 ≠ p.1)
    (hdist : es.Pairwise (fun p q => p.1 ≠ q.1)) :
    es.foldl (fun d p => assocInsert p.1 (canon p.2) d) acc =
      acc ++ canonEntries es := by
  induction es generalizing acc with
  | nil => simp [canonEntries]
  | cons p ps ih =>
    obtain ⟨k, v⟩ := p
    rw [List.foldl_cons]
    rw [assocInsert_fresh _ _ _ (hfresh (k, v) (by simp))]
    rw [List.pairwise_cons] at hdist
    rw [ih (acc ++ [(k, canon v)]) ?_ hdist.2]
    · rw [canonEntries]
      simp
    · intro p hp q hq
      rcases List.mem_append.mp hq with h' | h'
      · exact hfresh p (List.mem_cons_of_mem _ hp) q h'
      · rw [List.mem_singleton] at h'
        rw [h']
        exact hdist.1 p hp

theorem fcost_pos (v : Bencode) : 1 ≤ fcost v := by
  cases v <;> simp [fcost] <;> omega

theorem encode_length_pos (v : Bencode) : 1 ≤ (encode v).length := by
  cases v <;> simp [encode, encodeStr] <;> omega

theorem encodeStr_take_one (k tail : List Nat) :
    ¬ ((encodeStr k ++ tail).take 1 = [101]) := by
  rcases hd : natToDigits k.length with _ | ⟨b, r⟩
  · exact absurd hd (natToDigits_ne_nil _)
  · have hb : 48 ≤ b ∧ b ≤ 57 := natToDigits_mem_digit (by rw [hd]; simp)
    simp [encodeStr, hd]
    omega

theorem encode_take_one (v : Bencode) (tail : List Nat) :
    ¬ ((encode v ++ tail).take 1 = [101]) := by
  cases v with
  | int n => simp [encode]
  | str s =>
    have h : encode (.str s) = encodeStr s := by simp [encode]
    rw [h]
    exact encodeStr_take_one s tail
  | list l => simp [encode]
  | dict d => simp [encode]

mutual
theorem fcost_le_encode (v : Bencode) : fcost v ≤ (encode v).length := by
  cases v with
  | int n => simp [fcost, encode]
  | str s => simp [fcost, encode, encodeStr]; omega
  | list l =>
    have h := fcostList_le_encode l
    simp [fcost, encode]
    omega
  | dict d =>
    have h := fcostEntries_le_encode (sortPairs d)
    have h2 := fcostEntries_sortPairs d
    simp [fcost, encode]
    omega
termination_by sizeOf v
decreasing_by all_goals (simp [sizeOf_sortPairs]; try omega)

theorem fcostList_le_encode (l : List Bencode) :
    fcostList l ≤ (encodeList l).length + 1 := by
  cases l with
  | nil => simp [fcostList, encodeList]
  | cons x xs =>
    have h1 := fcost_le_encode x
    have h2 := fcostList_le_encode xs
    have h3 := encode_length_pos x
    have hmax : max (fcost x) (fcostList xs) ≤
        (encode x).length + (encodeList xs).length := by
      apply max_le
      · omega
      · omega
    simp [fcostList, encodeList]
    omega
termination_by sizeOf l
decreasing_by all_goals (simp; try omega)

theorem fcostEntries_le_encode (es : List (List Nat × Bencode)) :
    fcostEntries es ≤ (encodeEntries es).length := by
  cases es with
  | nil => simp [fcostEntries, encodeEntries]
  | cons p rest =>
    obtain ⟨k, v⟩ := p
    have h1 := fcost_le_encode v
    have h2 := fcostEntries_le_encode rest
    simp [fcostEntries, encodeEntries, encodeStr]
    omega
termination_by sizeOf es
decreasing_by all_goals (simp; try omega)
end

theorem decodeListAux_encode (l : List Bencode) (tail : List Nat) (fuel : Nat)
    (hf : fcostList l ≤ fuel) (hl : legalList l = true)
    (ih : ∀ u ∈ l, ∀ (t : List Nat) (f : Nat), fcost u ≤ f →
      legal u = true →
      decodeRec f (encode u ++ t) = some (canon u, (encode u).length)) :
    decodeListAux fuel (encodeList l ++ 101 :: tail) =
      some (canonList l, (encodeList l).length + 1) := by
  induction l generalizing fuel tail with
  | nil =>
    obtain ⟨f, rfl⟩ : ∃ f, fuel = f + 1 :=
      ⟨fuel - 1, by simp [fcostList] at hf; omega⟩
    simp [decodeListAux, encodeList, canonList]
  | cons x xs ihl =>
    obtain ⟨f, rfl⟩ : ∃ f, fuel = f + 1 :=
      ⟨fuel - 1, by simp [fcostList] at hf; omega⟩
    have hfc : fcostList (x :: xs) = 1 + max (fcost x) (fcostList xs) := by
      simp [fcostList]
    have hfx : fcost x ≤ f := by
      have h1 := Nat.le_max_left (fcost x) (fcostList xs)
      omega
    have hfxs : fcostList xs ≤ f := by
      have h1 := Nat.le_max_right (fcost x) (fcostList xs)
      omega
    have hlx : legal x = true := legalList_values hl x (by simp)
    have hlxs : legalList xs = true := by
      simp [legalList] at hl
      exact hl.2
    have hshape : encodeList (x :: xs) ++ 101 :: tail =
        encode x ++ (encodeList xs ++ 101 :: tail) := by
      simp [encodeList]
    have hdec := ih x (by simp) (encodeList xs ++ 101 :: tail) f hfx hlx
    have hdrop : (encode x ++ (encodeList xs ++ 101 :: tail)).drop
        (encode x).length = encodeList xs ++ 101 :: tail :=
      List.drop_left _ _
    have hrec := ihl tail f hfxs hlxs
      (fun u hu => ih u (List.mem_cons_of_mem _ hu))
    rw [hshape]
    simp only [decodeListAux, if_neg (encode_take_one x _), hdec, hdrop, hrec]
    simp [canonList, encodeList]
    omega

theorem decodeDictAux_encode (es : List (List Nat × Bencode))
    (tail : List Nat) (fuel : Nat) (acc : List (List Nat × Bencode))
    (hf : 1 + fcostEntries es ≤ fuel)
    (hv : ∀ p ∈ es, legal p.2 = true)
    (ih : ∀ p ∈ es, ∀ (t : List Nat) (f : Nat), fcost p.2 ≤ f →
      legal p.2 = true →
      decodeRec f (encode p.2 ++ t) = some (canon p.2, (encode p.2).length)) :
    decodeDictAux fuel (encodeEntries es ++ 101 :: tail) acc =
      some (es.foldl (fun d p => assocInsert p.1 (canon p.2) d) acc,
        (encodeEntries es).length + 1) := by
  induction es generalizing fuel tail acc with
  | nil =>
    obtain ⟨f, rfl⟩ : ∃ f, fuel = f + 1 := ⟨fuel - 1, by omega⟩
    simp [decodeDictAux, encodeEntries]
  | cons p rest ihd =>
    obtain ⟨k, v⟩ := p
    obtain ⟨f, rfl⟩ : ∃ f, fuel = f + 1 := ⟨fuel - 1, by omega⟩
    have hvp : legal v = true := hv (k, v) (by simp)
    have hposv := fcost_pos v
    have hfe : fcostEntries ((k, v) :: rest) = 1 + fcost v + fcostEntries rest := by
      simp [fcostEntries]
    have hfv : fcost v ≤ f := by omega
    have hfrest : 1 + fcostEntries rest ≤ f := by omega
    have hshape : encodeEntries ((k, v) :: rest) ++ 101 :: tail =
        encodeStr k ++ (encode v ++ (encodeEntries rest ++ 101 :: tail)) := by
      simp [encodeEntries]
    have hstr := decodeStringRaw_encodeStr k
      (encode v ++ (encodeEntries rest ++ 101 :: tail))
    have hdropk : (encodeStr k ++ (encode v ++ (encodeEntries rest ++
        101 :: tail))).drop (encodeStr k).length =
        encode v ++ (encodeEntries rest ++ 101 :: tail) :=
      List.drop_left _ _
    have hdec := ih (k, v) (by simp) (encodeEntries rest ++ 101 :: tail) f
      hfv hvp
    have hdropkv : (encodeStr k ++ (encode v ++ (encodeEntries rest ++
        101 :: tail))).drop ((encodeStr k).length + (encode v).length) =
        encodeEntries rest ++ 101 :: tail := by
      have : encodeStr k ++ (encode v ++ (encodeEntries rest ++ 101 :: tail)) =
          (encodeStr k ++ encode v) ++ (encodeEntries rest ++ 101 :: tail) := by
        simp
      rw [this, List.drop_left' (by simp)]
    have hrec := ihd tail f (assocInsert k (canon v) acc) hfrest
      (fun q hq => hv q (List.mem_cons_of_mem _ hq))
      (fun q hq => ih q (List.mem_cons_of_mem _ hq))
    rw [hshape]
    simp only [decodeDictAux, if_neg (encodeStr_take_one k _), hstr, hdropk,
      hdec, hdropkv, hrec]
    simp [encodeEntries, encodeStr]
    omega

theorem decodeRec_encode : ∀ (v : Bencode) (tail : List Nat) (fuel : Nat),
    fcost v ≤ fuel → legal v = true →
    decodeRec fuel (encode v ++ tail) = some (canon v, (encode v).length)
  | .int n, tail, fuel, hf, hv => by
    obtain ⟨f, rfl⟩ : ∃ f, fuel = f + 1 :=
      ⟨fuel - 1, by have := fcost_pos (Bencode.int n); omega⟩
    have hdec : decodeInt (105 :: (intToBytes n ++ 101 :: tail)) =
        some (.int n, (intToBytes n).length + 2) := by
      have h := decodeInt_encode n tail
      simpa using h
    have hshape : encode (.int n) ++ tail =
        105 :: (intToBytes n ++ 101 :: tail) := by
      simp [encode]
    rw [hshape]
    simp [decodeRec, hdec, canon, encode]
  | .str s, tail, fuel, hf, hv => by
    obtain ⟨f, rfl⟩ : ∃ f, fuel = f + 1 :=
      ⟨fuel - 1, by have := fcost_pos (Bencode.str s); omega⟩
    have henc : encode (.str s) = encodeStr s := by simp [encode]
    rcases hd : natToDigits s.length with _ | ⟨b, r⟩
    · exact absurd hd (natToDigits_ne_nil _)
    · have hb : 48 ≤ b ∧ b ≤ 57 := natToDigits_mem_digit (by rw [hd]; simp)
      have hshape : encodeStr s ++ tail = b :: (r ++ 58 :: (s ++ tail)) := by
        simp [encodeStr, hd]
      have h105 : ¬ b = 105 := by omega
      have h108 : ¬ b = 108 := by omega
      have h100 : ¬ b = 100 := by omega
      have hdig : isDigit b = true := by simp [isDigit]; omega
      have hstr := decodeStringRaw_encodeStr s tail
      rw [henc, hshape]
      simp only [decodeRec, if_neg h105, if_neg h108, if_neg h100, hdig,
        if_true]
      rw [← hshape, hstr]
      simp [canon, henc]
  | .list l, tail, fuel, hf, hv => by
    obtain ⟨f, rfl⟩ : ∃ f, fuel = f + 1 :=
      ⟨fuel - 1, by have := fcost_pos (Bencode.list l); omega⟩
    have hfl : fcostList l ≤ f := by simp [fcost] at hf; omega
    have hvl : legalList l = true := by simp [legal] at hv; exact hv
    have haux := decodeListAux_encode l tail f hfl hvl
      (fun u hu t f' hf' hv' => decodeRec_encode u t f' hf' hv')
    have hshape : encode (.list l) ++ tail =
        108 :: (encodeList l ++ 101 :: tail) := by
      simp [encode]
    rw [hshape]
    simp only [decodeRec, if_neg (by omega : ¬ (108 : Nat) = 105),
      if_pos rfl, List.drop_succ_cons, List.drop_zero]
    rw [haux]
    simp [canon, encode]
  | .dict d, tail, fuel, hf, hv => by
    obtain ⟨f, rfl⟩ : ∃ f, fuel = f + 1 :=
      ⟨fuel - 1, by have := fcost_pos (Bencode.dict d); omega⟩
    have hvd : legalEntries d = true := by simp [legal] at hv; exact hv
    have hvals : ∀ p ∈ sortPairs d, legal p.2 = true :=
      fun p hp => legalEntries_values hvd p (mem_sortPairs hp)
    have hfd : 1 + fcostEntries (sortPairs d) ≤ f := by
      simp [fcost] at hf
      rw [fcostEntries_sortPairs]
      omega
    have haux := decodeDictAux_encode (sortPairs d) tail f [] hfd hvals
      (fun p hp t f' hf' hv'' => decodeRec_encode p.2 t f' hf' hv'')
    have hdist : (sortPairs d).Pairwise (fun p q => p.1 ≠ q.1) :=
      ((sortPairs_perm d).pairwise_iff (fun h' => h'.symm)).mpr
        (legalEntries_pairwise hvd)
    rw [foldl_assocInsert_canon _ [] (by simp) hdist] at haux
    have hshape : encode (.dict d) ++ tail =
        100 :: (encodeEntries (sortPairs d) ++ 101 :: tail) := by
      simp [encode]
    rw [hshape]
    simp only [decodeRec, if_neg (by omega : ¬ (100 : Nat) = 105),
      if_neg (by omega : ¬ (100 : Nat) = 108), if_pos rfl,
      List.drop_succ_cons, List.drop_zero]
    rw [haux]
    simp [canon, encode]
termination_by v => sizeOf v
decreasing_by
  all_goals
    first
    | (have h1 := List.sizeOf_lt_of_mem hu
       simp only [Bencode.list.sizeOf_spec]
       omega)
    | (have h1 := List.sizeOf_lt_of_mem (mem_sortPairs hp)
       obtain ⟨a, b⟩ := p
       simp only [Prod.mk.sizeOf_spec] at h1
       simp only [Bencode.dict.sizeOf_spec]
       omega)

example : encode (.dict [([99, 111, 119], .str [109, 111, 111]),
    ([115, 112, 97, 109], .str [101, 103, 103, 115])]) =
    [100, 51, 58, 99, 111, 119, 51, 58, 109, 111, 111,
     52, 58, 115, 112, 97, 109, 52, 58, 101, 103, 103, 115, 101] := by
  simp [encode, encodeEntries, encodeStr, sortPairs, insertPair, bytesLe,
    natToDigits]

example : decode [108, 105, 52, 50, 101, 52, 58, 115, 112, 97, 109, 101] =
    some (.list [.int 42, .str [115, 112, 97, 109]]) := rfl

example : decode [105, 45, 48, 101] = some (.int 0) := rfl

/-! ## Round trip: decoding a canonical encoding -/

theorem decode_encode_canon (v : Bencode) (hv : legal v = true) :
    decode (encode v) = some (canon v) := by
  have hfe : fcost v ≤ (encode v).length + 1 :=
    le_trans (fcost_le_encode v) (by omega)
  have h := decodeRec_encode v [] ((encode v).length + 1) hfe hv
  rw [List.append_nil] at h
  simp [decode, h]

/-! ## Python equality of the canonical form with the original value -/

theorem canonEntries_length (es : List (List Nat × Bencode)) :
    (canonEntries es).length = es.length := by
  induction es with
  | nil => simp [canonEntries]
  | cons p rest ih =>
    obtain ⟨k, v⟩ := p
    simp [canonEntries, ih]

theorem mem_canonEntries {p : List Nat × Bencode}
    {es : List (List Nat × Bencode)} (h : p ∈ canonEntries es) :
    ∃ q ∈ es, p = (q.1, canon q.2) := by
  induction es with
  | nil => simp [canonEntries] at h
  | cons q rest ih =>
    obtain ⟨k, v⟩ := q
    rw [canonEntries] at h
    rcases List.mem_cons.mp h with h' | h'
    · exact ⟨(k, v), by simp, h'⟩
    · obtain ⟨q', hq', he⟩ := ih h'
      exact ⟨q', List.mem_cons_of_mem _ hq', he⟩

theorem assocLookup_of_mem {α : Type} {k : List Nat} {v : α}
    {l : List (List Nat × α)} (hd : l.Pairwise (fun p q => p.1 ≠ q.1))
    (hm : (k, v) ∈ l) : assocLookup k l = some v := by
  induction l with
  | nil => simp at hm
  | cons p rest ih =>
    obtain ⟨k', v'⟩ := p
    rw [List.pairwise_cons] at hd
    rcases List.mem_cons.mp hm with h' | h'
    · obtain ⟨rfl, rfl⟩ : k' = k ∧ v' = v := by
        have := h'.symm
        simpa [Prod.ext_iff] using this
      simp [assocLookup]
    · have hne : ¬ k' = k := by
        intro he
        have h2 := hd.1 (k, v) h'
        simp at h2
        exact h2 he
      simp [assocLookup, hne]
      exact ih hd.2 h'

theorem pyEqList_canon (l : List Bencode) (hl : legalList l = true)
    (ih : ∀ u ∈ l, legal u = true → pyEq (canon u) u = true) :
    pyEqList (canonList l) l = true := by
  induction l with
  | nil => simp [canonList, pyEqList]
  | cons x xs ihl =>
    simp [legalList] at hl
    rw [canonList, pyEqList]
    rw [ih x (by simp) hl.1, ihl hl.2
      (fun u hu h => ih u (List.mem_cons_of_mem _ hu) h)]
    rfl

theorem pyEqEntries_of (es d : List (List Nat × Bencode))
    (h : ∀ p ∈ es, ∃ w, assocLookup p.1 d = some w ∧ pyEq p.2 w = true) :
    pyEqEntries es d = true := by
  induction es with
  | nil => simp [pyEqEntries]
  | cons p rest ih =>
    obtain ⟨k, v⟩ := p
    obtain ⟨w, hw0, hpe0⟩ := h (k, v) (by simp)
    have hw : assocLookup k d = some w := hw0
    have hpe : pyEq v w = true := hpe0
    rw [pyEqEntries, ih (fun q hq => h q (List.mem_cons_of_mem _ hq)),
      Bool.and_true]
    split
    · next w' heq =>
      rw [heq] at hw
      obtain rfl : w' = w := by simpa using hw
      exact hpe
    · next heq =>
      rw [heq] at hw
      simp at hw

theorem pyEq_canon : ∀ (v : Bencode), legal v = true →
    pyEq (canon v) v = true
  | .int n, _ => by simp [canon, pyEq]
  | .str s, _ => by simp [canon, pyEq]
  | .list l, hv => by
    have hvl : legalList l = true := by simp [legal] at hv; exact hv
    rw [canon, pyEq]
    exact pyEqList_canon l hvl
      (fun u hu h => pyEq_canon u h)
  | .dict d, hv => by
    have hvd : legalEntries d = true := by simp [legal] at hv; exact hv
    have hdist : d.Pairwise (fun p q => p.1 ≠ q.1) :=
      legalEntries_pairwise hvd
    have hlen : (canonEntries (sortPairs d)).length = d.length := by
      rw [canonEntries_length]
      exact (sortPairs_perm d).length_eq
    have hent : pyEqEntries (canonEntries (sortPairs d)) d = true := by
      apply pyEqEntries_of
      intro p hp
      obtain ⟨q, hq, rfl⟩ := mem_canonEntries hp
      obtain ⟨k, v⟩ := q
      have hmem : (k, v) ∈ d := mem_sortPairs hq
      refine ⟨v, assocLookup_of_mem hdist hmem, ?_⟩
      exact pyEq_canon v (legalEntries_values hvd (k, v) hmem)
    rw [canon, pyEq, hlen, hent]
    simp
termination_by v => sizeOf v
decreasing_by
  all_goals
    first
    | (have h1 := List.sizeOf_lt_of_mem hu
       simp only [Bencode.list.sizeOf_spec]
       omega)
    | (have h1 := List.sizeOf_lt_of_mem (mem_sortPairs hq)
       simp only [Prod.mk.sizeOf_spec] at h1
       simp only [Bencode.dict.sizeOf_spec]
       omega)

/-! ## Lookup in a dict built by repeated insertion -/

theorem assocLookup_assocInsert {κ α : Type} [DecidableEq κ] (k k' : κ)
    (v : α) (l : List (κ × α)) :
    assocLookup k (assocInsert k' v l) =
      if k' = k then some v else assocLookup k l := by
  induction l with
  | nil => simp [assocInsert, assocLookup]
  | cons p rest ih =>
    obtain ⟨k'', v''⟩ := p
    by_cases h1 : k'' = k'
    · subst h1
      by_cases h2 : k'' = k
      · subst h2
        simp [assocInsert, assocLookup]
      · simp [assocInsert, assocLookup, h2]
    · by_cases h2 : k'' = k
      · subst h2
        have : ¬ k' = k'' := fun h => h1 h.symm
        simp [assocInsert, assocLookup, h1, this]
      · simp [assocInsert, assocLookup, h1, h2, ih]

theorem assocLookup_append {α : Type} (k : List Nat)
    (a b : List (List Nat × α)) :
    assocLookup k (a ++ b) =
      match assocLookup k a with
      | some v => some v
      | none => assocLookup k b := by
  induction a with
  | nil => simp [assocLookup]
  | cons p rest ih =>
    obtain ⟨k', v'⟩ := p
    by_cases h : k' = k
    · simp [assocLookup, h]
    · simp [assocLookup, h, ih]

theorem assocLookup_foldl_insert (es : List (List Nat × Bencode))
    (acc : List (List Nat × Bencode)) (k : List Nat) :
    assocLookup k (es.foldl (fun d p => assocInsert p.1 (canon p.2) d) acc) =
      match assocLookup k es.reverse with
      | some v => some (canon v)
      | none => assocLookup k acc := by
  induction es generalizing acc with
  | nil => simp [assocLookup]
  | cons p rest ih =>
    obtain ⟨k', v'⟩ := p
    rw [List.foldl_cons, ih]
    rw [List.reverse_cons, assocLookup_append]
    rcases hr : assocLookup k rest.reverse with _ | w
    · simp only [assocLookup_assocInsert]
      by_cases h : k' = k
      · simp [assocLookup, h]
      · simp [assocLookup, h]
    · rfl

/-! ## Claim theorems for the bencoding codec -/

/-- C1: for every legal bencodable value `v` composed of the four kinds
(integer, byte-string, list, dictionary with byte-string keys), Python
`decode(encode(v)) == v`: decoding succeeds and the result compares
equal to `v` under Python equality (`pyEq`). -/
theorem c1_decode_encode_roundtrip (v : Bencode) (hv : legal v = true) :
    ∃ w, decode (encode v) = some w ∧ pyEq w v = true :=
  ⟨canon v, decode_encode_canon v hv, pyEq_canon v hv⟩

/-- Witness for C1 at a concrete unsorted two-level dictionary. -/
theorem c1_witness :
    legal (Bencode.dict [([115], .str [101, 103]), ([99], .int (-7)),
      ([98], .list [.str [255]])]) = true ∧
    ∃ w, decode (encode (Bencode.dict [([115], .str [101, 103]),
      ([99], .int (-7)), ([98], .list [.str [255]])])) = some w ∧
      pyEq w (Bencode.dict [([115], .str [101, 103]), ([99], .int (-7)),
        ([98], .list [.str [255]])]) = true := by
  have hlegal : legal (Bencode.dict [([115], .str [101, 103]),
      ([99], .int (-7)), ([98], .list [.str [255]])]) = true := by
    simp [legal, legalEntries, legalList]
  exact ⟨hlegal, c1_decode_encode_roundtrip _ hlegal⟩

/-- C8 counterexample: the claim says `decode(b"i-0e")` fails, but in
the source `decode_int` feeds `b"-0"` to Python `int`, which accepts it;
decoding does not fail. -/
theorem c8_counterexample : ¬ (decode [105, 45, 48, 101] = none) := by
  rw [show decode [105, 45, 48, 101] = some (.int 0) from rfl]
  simp

/-- C8 amended: `decode(b"i-0e")` succeeds and returns the integer `0`
(Python `int(b"-0")` evaluates to `0`; the decoder rejects no integer
spelling that Python `int` accepts). -/
theorem c8_amended : decode [105, 45, 48, 101] = some (.int 0) := rfl

/-- C10: decoding a bencoded dictionary wire in which the same key is
bound more than once succeeds, and the resulting dictionary maps each
key to (the canonical form of) the value of its last occurrence on the
wire, because `decode_dict` executes `d[key] = value` left to right. -/
theorem c10_duplicate_keys (es : List (List Nat × Bencode))
    (hv : ∀ p ∈ es, legal p.2 = true)
    (hdup : ¬ (es.map Prod.fst).Nodup) :
    ∃ m, decode (100 :: (encodeEntries es ++ [101])) = some (.dict m) ∧
      ∀ k v, assocLookup k es.reverse = some v →
        assocLookup k m = some (canon v) := by
  refine ⟨es.foldl (fun d p => assocInsert p.1 (canon p.2) d) [], ?_, ?_⟩
  · have hfe := fcostEntries_le_encode es
    have haux := decodeDictAux_encode es [] ((encodeEntries es).length + 2) []
      (by omega) hv
      (fun p _ t f hfp hvp => decodeRec_encode p.2 t f hfp hvp)
    have hlen : (100 :: (encodeEntries es ++ [101])).length =
        (encodeEntries es).length + 2 := by simp
    unfold decode
    rw [hlen]
    simp only [decodeRec, if_neg (by omega : ¬ (100 : Nat) = 105),
      if_neg (by omega : ¬ (100 : Nat) = 108), if_pos rfl,
      List.drop_succ_cons, List.drop_zero]
    rw [haux]
    simp
  · intro k v hlast
    rw [assocLookup_foldl_insert, hlast]

/-- Witness for C10 at a concrete wire binding the key `b"a"` twice. -/
theorem c10_witness :
    (∀ p ∈ [(([97] : List Nat), Bencode.int 1), ([97], Bencode.int 2)],
      legal p.2 = true) ∧
    ¬ (([(([97] : List Nat), Bencode.int 1),
        ([97], Bencode.int 2)].map Prod.fst).Nodup) ∧
    ∃ m, decode (100 :: (encodeEntries [(([97] : List Nat), Bencode.int 1),
        ([97], Bencode.int 2)] ++ [101])) = some (.dict m) ∧
      ∀ k v, assocLookup k [(([97] : List Nat), Bencode.int 1),
          ([97], Bencode.int 2)].reverse = some v →
        assocLookup k m = some (canon v) := by
  have h1 : ∀ p ∈ [(([97] : List Nat), Bencode.int 1), ([97], Bencode.int 2)],
      legal p.2 = true := by
    intro p hp
    rcases List.mem_cons.mp hp with h | h
    · rw [h]; simp [legal]
    · rw [List.mem_singleton] at h; rw [h]; simp [legal]
  have h2 : ¬ (([(([97] : List Nat), Bencode.int 1),
      ([97], Bencode.int 2)].map Prod.fst).Nodup) := by decide
  exact ⟨h1, h2, c10_duplicate_keys _ h1 h2⟩

/-! ## Order facts about lexicographic key comparison -/

theorem bytesLe_trans : ∀ (a b c : List Nat), bytesLe a b = true →
    bytesLe b c = true → bytesLe a c = true
  | [], _, _, _, _ => by simp [bytesLe]
  | _ :: _, [], _, h1, _ => by simp [bytesLe] at h1
  | _ :: _, _ :: _, [], _, h2 => by simp [bytesLe] at h2
  | a :: as, b :: bs, c :: cs, h1, h2 => by
    rw [bytesLe] at h1 h2 ⊢
    by_cases hab : a < b
    · by_cases hbc : b < c
      · rw [if_pos (by omega)]
      · rw [if_neg hbc] at h2
        by_cases hcb : c < b
        · rw [if_pos hcb] at h2
          exact absurd h2 (by simp)
        · rw [if_pos (by omega)]
    · rw [if_neg hab] at h1
      by_cases hba : b < a
      · rw [if_pos hba] at h1
        exact absurd h1 (by simp)
      · rw [if_neg hba] at h1
        by_cases hbc : b < c
        · rw [if_pos (by omega)]
        · rw [if_neg hbc] at h2
          by_cases hcb : c < b
          · rw [if_pos hcb] at h2
            exact absurd h2 (by simp)
          · rw [if_neg hcb] at h2
            rw [if_neg (by omega : ¬ a < c), if_neg (by omega : ¬ c < a)]
            exact bytesLe_trans as bs cs h1 h2

theorem bytesLe_total : ∀ (a b : List Nat),
    bytesLe a b = true ∨ bytesLe b a = true
  | [], _ => Or.inl (by simp [bytesLe])
  | _ :: _, [] => Or.inr (by simp [bytesLe])
  | a :: as, b :: bs => by
    simp only [bytesLe]
    by_cases hab : a < b
    · left
      rw [if_pos hab]
    · by_cases hba : b < a
      · right
        rw [if_pos hba]
      · rw [if_neg hab, if_neg hba, if_neg hba, if_neg hab]
        exact bytesLe_total as bs

theorem insertPair_sorted {α : Type} (p : List Nat × α)
    (l : List (List Nat × α))
    (hl : l.Pairwise (fun x y => bytesLe x.1 y.1 = true)) :
    (insertPair p l).Pairwise (fun x y => bytesLe x.1 y.1 = true) := by
  induction l with
  | nil => simp [insertPair]
  | cons q qs ih =>
    rw [List.pairwise_cons] at hl
    rw [insertPair]
    split
    · next hle =>
      rw [List.pairwise_cons]
      refine ⟨?_, List.Pairwise.cons hl.1 hl.2⟩
      intro r hr
      rcases List.mem_cons.mp hr with h | h
      · rw [h]
        exact hle
      · exact bytesLe_trans _ _ _ hle (hl.1 r h)
    · next hgt =>
      rw [List.pairwise_cons]
      refine ⟨?_, ih hl.2⟩
      intro r hr
      have hmem := (insertPair_perm p qs).mem_iff.mp hr
      rcases List.mem_cons.mp hmem with h | h
      · rw [h]
        rcases bytesLe_total p.1 q.1 with h' | h'
        · exact absurd h' (by simpa using hgt)
        · exact h'
      · exact hl.1 r h

theorem sortPairs_sorted {α : Type} (l : List (List Nat × α)) :
    (sortPairs l).Pairwise (fun x y => bytesLe x.1 y.1 = true) := by
  induction l with
  | nil => simp [sortPairs]
  | cons p ps ih => exact insertPair_sorted p _ ih

theorem sortPairs_sorted_id {α : Type} (l : List (List Nat × α))
    (hl : l.Pairwise (fun x y => bytesLe x.1 y.1 = true)) :
    sortPairs l = l := by
  induction l with
  | nil => rfl
  | cons p ps ih =>
    rw [List.pairwise_cons] at hl
    rw [sortPairs, ih hl.2]
    cases ps with
    | nil => rfl
    | cons q qs =>
      rw [insertPair, if_pos (hl.1 q (by simp))]

/-! ## Encoding is invariant under canonicalisation -/

theorem canonEntries_eq_map (es : List (List Nat × Bencode)) :
    canonEntries es = es.map (fun p => (p.1, canon p.2)) := by
  induction es with
  | nil => simp [canonEntries]
  | cons p rest ih =>
    obtain ⟨k, v⟩ := p
    simp [canonEntries, ih]

mutual
theorem encode_canon (v : Bencode) (hv : legal v = true) :
    encode (canon v) = encode v := by
  cases v with
  | int n => simp [canon]
  | str s => simp [canon]
  | list l =>
    have hvl : legalList l = true := by simp [legal] at hv; exact hv
    have h := encodeList_canon l hvl
    simp [canon, encode, h]
  | dict d =>
    have hvd : legalEntries d = true := by simp [legal] at hv; exact hv
    have hsorted : (canonEntries (sortPairs d)).Pairwise
        (fun x y => bytesLe x.1 y.1 = true) := by
      rw [canonEntries_eq_map, List.pairwise_map]
      exact sortPairs_sorted d
    have hid : sortPairs (canonEntries (sortPairs d)) =
        canonEntries (sortPairs d) := sortPairs_sorted_id _ hsorted
    have hents : encodeEntries (canonEntries (sortPairs d)) =
        encodeEntries (sortPairs d) :=
      encodeEntries_canon (sortPairs d)
        (fun p hp => legalEntries_values hvd p (mem_sortPairs hp))
    simp [canon, encode, hid, hents]
termination_by sizeOf v
decreasing_by all_goals (subst_vars; simp [sizeOf_sortPairs]; try omega)

theorem encodeList_canon (l : List Bencode) (hl : legalList l = true) :
    encodeList (canonList l) = encodeList l := by
  cases l with
  | nil => simp [canonList]
  | cons x xs =>
    rw [legalList] at hl
    rcases Bool.and_eq_true_iff.mp hl with ⟨hx, hxs⟩
    rw [canonList, encodeList, encode_canon x hx, encodeList_canon xs hxs,
      encodeList]
termination_by sizeOf l
decreasing_by all_goals (subst_vars; simp; try omega)

theorem encodeEntries_canon : ∀ (es : List (List Nat × Bencode)),
    (∀ p ∈ es, legal p.2 = true) →
    encodeEntries (canonEntries es) = encodeEntries es
  | [], _ => by simp [canonEntries]
  | (k, v) :: rest, hv => by
    rw [canonEntries, encodeEntries, encode_canon v (hv (k, v) (by simp)),
      encodeEntries_canon rest (fun q hq => hv q (List.mem_cons_of_mem _ hq)),
      encodeEntries]
termination_by es => sizeOf es
decreasing_by all_goals (simp; try omega)
end

/-! ## Looking up a key after canonicalisation -/

theorem assocLookup_mem {κ α : Type} [DecidableEq κ] {k : κ} {v : α}
    {l : List (κ × α)} (h : assocLookup k l = some v) : (k, v) ∈ l := by
  induction l with
  | nil => simp [assocLookup] at h
  | cons p rest ih =>
    obtain ⟨k', v'⟩ := p
    rw [assocLookup] at h
    split at h
    · next he =>
      subst he
      obtain rfl : v' = v := by simpa using h
      simp
    · exact List.mem_cons_of_mem _ (ih h)

theorem assocLookup_canon_sort {m : List (List Nat × Bencode)}
    {k : List Nat} {v : Bencode} (hm : legalEntries m = true)
    (h : assocLookup k m = some v) :
    assocLookup k (canonEntries (sortPairs m)) = some (canon v) := by
  have hmem : (k, v) ∈ m := assocLookup_mem h
  have hmem2 : (k, v) ∈ sortPairs m := (sortPairs_perm m).mem_iff.mpr hmem
  have hmem3 : (k, canon v) ∈ canonEntries (sortPairs m) := by
    rw [canonEntries_eq_map]
    exact List.mem_map_of_mem _ hmem2
  refine assocLookup_of_mem ?_ hmem3
  rw [canonEntries_eq_map, List.pairwise_map]
  exact ((sortPairs_perm m).pairwise_iff (fun h' => h'.symm)).mpr
    (legalEntries_pairwise hm)

/-! ## The parsed metainfo determines the infohash input -/

theorem torrentParse_decode {wire : List Nat} {t : TorrentMeta}
    (ht : torrentParse wire = some t) :
    ∃ md info, decode wire = some (.dict md) ∧
      assocLookup infoKey md = some info ∧
      t.infoHashInput = encode info := by
  unfold torrentParse at ht
  rw [Option.bind_eq_some] at ht
  obtain ⟨meta, hdec, ht⟩ := ht
  rw [Option.bind_eq_some] at ht
  obtain ⟨m, hm, ht⟩ := ht
  rw [Option.bind_eq_some] at ht
  obtain ⟨info, hinfo, ht⟩ := ht
  rw [Option.bind_eq_some] at ht
  obtain ⟨infoD, _, ht⟩ := ht
  rw [Option.bind_eq_some] at ht
  obtain ⟨ann, _, ht⟩ := ht
  rw [Option.bind_eq_some] at ht
  obtain ⟨annStr, _, ht⟩ := ht
  rw [Option.bind_eq_some] at ht
  obtain ⟨plen, _, ht⟩ := ht
  rw [Option.bind_eq_some] at ht
  obtain ⟨blob, _, ht⟩ := ht
  rw [Option.bind_eq_some] at ht
  obtain ⟨nm, _, ht⟩ := ht
  rw [Option.bind_eq_some] at ht
  obtain ⟨nmStr, _, ht⟩ := ht
  have hmd : meta = Bencode.dict m := by
    cases meta <;> simp [asDict] at hm
    rw [hm]
  refine ⟨m, info, by rw [← hmd]; exact hdec, hinfo, ?_⟩
  split at ht
  · rw [Option.bind_eq_some] at ht
    obtain ⟨fl, _, ht⟩ := ht
    rw [Option.bind_eq_some] at ht
    obtain ⟨fs, _, ht⟩ := ht
    obtain rfl : _ = t := Option.some.inj ht
    rfl
  · rw [Option.bind_eq_some] at ht
    obtain ⟨lv, _, ht⟩ := ht
    obtain rfl : _ = t := Option.some.inj ht
    rfl

theorem all_lt_256_of_lt_128 {s : List Nat} (h : s.all (· < 128) = true) :
    s.all (· < 256) = true := by
  rw [List.all_eq_true] at h ⊢
  intro b hb
  have h2 := h b hb
  simp at h2 ⊢
  omega

/-- Forward evaluation of `Torrent.__init__` on a canonical single-file
metainfo whose `announce` and `name` are ASCII: parsing succeeds and the
fields are exactly the expected ones.  Shared by the C2 and C7 claims. -/
theorem torrentParse_single_file (ann nm blob : List Nat) (plen len : Int)
    (hann : ann.all (· < 128) = true) (hnm : nm.all (· < 128) = true)
    (hblob : blob.all (· < 256) = true) :
    torrentParse (encode (.dict [(announceKey, .str ann),
      (infoKey, .dict [(lengthKey, .int len), (nameKey, .str nm),
        (pieceLengthKey, .int plen), (piecesKey, .str blob)])])) =
    some { announce := ann,
           infoHashInput := encode (.dict [(lengthKey, .int len),
             (nameKey, .str nm), (pieceLengthKey, .int plen),
             (piecesKey, .str blob)]),
           pieceLength := .int plen,
           piecesHashes := splitPiecesHashes blob,
           name := nm, files := [], totalSize := .int len } := by
  have hann' := all_lt_256_of_lt_128 hann
  have hnm' := all_lt_256_of_lt_128 hnm
  have hlegal : legal (Bencode.dict [(announceKey, .str ann),
      (infoKey, .dict [(lengthKey, .int len), (nameKey, .str nm),
        (pieceLengthKey, .int plen), (piecesKey, .str blob)])]) = true := by
    simp [legal, legalEntries, announceKey, infoKey, lengthKey, nameKey,
      pieceLengthKey, piecesKey, hann', hnm', hblob]
  have hdec := decode_encode_canon _ hlegal
  have hcanon : canon (Bencode.dict [(announceKey, .str ann),
      (infoKey, .dict [(lengthKey, .int len), (nameKey, .str nm),
        (pieceLengthKey, .int plen), (piecesKey, .str blob)])]) =
      Bencode.dict [(announceKey, .str ann),
      (infoKey, .dict [(lengthKey, .int len), (nameKey, .str nm),
        (pieceLengthKey, .int plen), (piecesKey, .str blob)])] := by
    simp [canon, canonEntries, sortPairs, insertPair, bytesLe, announceKey,
      infoKey, lengthKey, nameKey, pieceLengthKey, piecesKey]
  rw [hcanon] at hdec
  have lkAnn : assocLookup announceKey [(announceKey, Bencode.str ann),
      (infoKey, Bencode.dict [(lengthKey, .int len), (nameKey, .str nm),
        (pieceLengthKey, .int plen), (piecesKey, .str blob)])] =
      some (Bencode.str ann) := by
    rw [assocLookup, if_pos rfl]
  have lkInfo : assocLookup infoKey [(announceKey, Bencode.str ann),
      (infoKey, Bencode.dict [(lengthKey, .int len), (nameKey, .str nm),
        (pieceLengthKey, .int plen), (piecesKey, .str blob)])] =
      some (Bencode.dict [(lengthKey, .int len), (nameKey, .str nm),
        (pieceLengthKey, .int plen), (piecesKey, .str blob)]) := by
    rw [assocLookup, if_neg (by decide), assocLookup, if_pos rfl]
  have lkPlen : assocLookup pieceLengthKey [((lengthKey : List Nat), Bencode.int len),
      (nameKey, .str nm), (pieceLengthKey, .int plen), (piecesKey, .str blob)] =
      some (Bencode.int plen) := by
    rw [assocLookup, if_neg (by decide), assocLookup, if_neg (by decide),
      assocLookup, if_pos rfl]
  have lkPieces : assocLookup piecesKey [((lengthKey : List Nat), Bencode.int len),
      (nameKey, .str nm), (pieceLengthKey, .int plen), (piecesKey, .str blob)] =
      some (Bencode.str blob) := by
    rw [assocLookup, if_neg (by decide), assocLookup, if_neg (by decide),
      assocLookup, if_neg (by decide), assocLookup, if_pos rfl]
  have lkName : assocLookup nameKey [((lengthKey : List Nat), Bencode.int len),
      (nameKey, .str nm), (pieceLengthKey, .int plen), (piecesKey, .str blob)] =
      some (Bencode.str nm) := by
    rw [assocLookup, if_neg (by decide), assocLookup, if_pos rfl]
  have lkFiles : assocLookup filesKey [((lengthKey : List Nat), Bencode.int len),
      (nameKey, .str nm), (pieceLengthKey, .int plen), (piecesKey, .str blob)] =
      none := by
    rw [assocLookup, if_neg (by decide), assocLookup, if_neg (by decide),
      assocLookup, if_neg (by decide), assocLookup, if_neg (by decide),
      assocLookup]
  have lkLen : assocLookup lengthKey [((lengthKey : List Nat), Bencode.int len),
      (nameKey, .str nm), (pieceLengthKey, .int plen), (piecesKey, .str blob)] =
      some (Bencode.int len) := by
    rw [assocLookup, if_pos rfl]
  unfold torrentParse
  rw [hdec]
  simp only [Option.some_bind, asDict, lkAnn, lkInfo, asStr, Option.bind_some,
    lkPlen, lkPieces, lkName, lkFiles, lkLen, pyAsciiDecode, hann, hnm,
    if_true]

/-- C2: for a legal metainfo file — the canonical encoding of a legal
dictionary `m` whose `info` entry is `v` — the infohash computed by
`Torrent.__init__` (SHA-1 over `encode` of the re-decoded `info`)
equals SHA-1 over the exact byte slice of the file that encodes the
`info` value, which for the canonical encoding is `encode v`.  The
digest function is abstract: equality holds for every `sha1`. -/
theorem c2_infohash (sha1 : List Nat → List Nat)
    (m : List (List Nat × Bencode)) (v : Bencode) (t : TorrentMeta)
    (hm : legal (.dict m) = true)
    (hinfo : assocLookup infoKey m = some v)
    (ht : torrentParse (encode (.dict m)) = some t) :
    sha1 t.infoHashInput = sha1 (encode v) := by
  obtain ⟨md, info, hdec, hlook, hhash⟩ := torrentParse_decode ht
  have hdec2 : decode (encode (.dict m)) = some (canon (.dict m)) :=
    decode_encode_canon _ hm
  have hc : canon (.dict m) = .dict (canonEntries (sortPairs m)) := by
    simp [canon]
  rw [hdec2, hc] at hdec
  have hmd : canonEntries (sortPairs m) = md := by
    have h2 := Option.some.inj hdec
    exact Bencode.dict.inj h2
  have hlv : legalEntries m = true := by simp [legal] at hm; exact hm
  have hlook2 := assocLookup_canon_sort hlv hinfo
  rw [hmd, hlook] at hlook2
  obtain rfl : info = canon v := Option.some.inj hlook2
  rw [hhash]
  have hmem : (infoKey, v) ∈ m := assocLookup_mem hinfo
  have hlegalv : legal v = true := legalEntries_values hlv (infoKey, v) hmem
  rw [encode_canon v hlegalv]

/-- Witness for C2 at a concrete single-file metainfo, with the digest
function instantiated to the identity. -/
theorem c2_witness :
    legal (Bencode.dict [(announceKey, .str [97]),
      (infoKey, .dict [(lengthKey, .int 5), (nameKey, .str [110]),
        (pieceLengthKey, .int 2), (piecesKey, .str [1, 2, 3])])]) = true ∧
    assocLookup infoKey [(announceKey, Bencode.str [97]),
      (infoKey, .dict [(lengthKey, .int 5), (nameKey, .str [110]),
        (pieceLengthKey, .int 2), (piecesKey, .str [1, 2, 3])])] =
      some (.dict [(lengthKey, .int 5), (nameKey, .str [110]),
        (pieceLengthKey, .int 2), (piecesKey, .str [1, 2, 3])]) ∧
    ∃ t, torrentParse (encode (.dict [(announceKey, .str [97]),
      (infoKey, .dict [(lengthKey, .int 5), (nameKey, .str [110]),
        (pieceLengthKey, .int 2), (piecesKey, .str [1, 2, 3])])])) =
        some t ∧
      (fun l : List Nat => l) t.infoHashInput =
        (fun l : List Nat => l) (encode (.dict [(lengthKey, .int 5),
          (nameKey, .str [110]), (pieceLengthKey, .int 2),
          (piecesKey, .str [1, 2, 3])])) := by
  have hp := torrentParse_single_file [97] [110] [1, 2, 3] 2 5
    (by decide) (by decide) (by decide)
  have hlegal : legal (Bencode.dict [(announceKey, .str [97]),
      (infoKey, .dict [(lengthKey, .int 5), (nameKey, .str [110]),
        (pieceLengthKey, .int 2), (piecesKey, .str [1, 2, 3])])]) = true := by
    simp [legal, legalEntries, announceKey, infoKey, lengthKey, nameKey,
      pieceLengthKey, piecesKey]
  have hinfo : assocLookup infoKey [(announceKey, Bencode.str [97]),
      (infoKey, .dict [(lengthKey, .int 5), (nameKey, .str [110]),
        (pieceLengthKey, .int 2), (piecesKey, .str [1, 2, 3])])] =
      some (.dict [(lengthKey, .int 5), (nameKey, .str [110]),
        (pieceLengthKey, .int 2), (piecesKey, .str [1, 2, 3])]) := by
    rw [assocLookup, if_neg (by decide), assocLookup, if_pos rfl]
  exact ⟨hlegal, hinfo, _, hp,
    c2_infohash (fun l => l) _ _ _ hlegal hinfo hp⟩

/-- C7 counterexample: a concrete metainfo whose `pieces` blob has
length 21 (not divisible by 20) parses successfully — the code contains
no `MalformedMetainfo` check at all, contradicting the claim that
parsing fails. -/
theorem c7_counterexample :
    (List.replicate 21 0).length % 20 ≠ 0 ∧
    torrentParse (encode (.dict [(announceKey, .str [97]),
      (infoKey, .dict [(lengthKey, .int 21), (nameKey, .str [110]),
        (pieceLengthKey, .int 16384),
        (piecesKey, .str (List.replicate 21 0))])])) ≠ none := by
  refine ⟨by decide, ?_⟩
  rw [torrentParse_single_file [97] [110] (List.replicate 21 0) 16384 21
    (by decide) (by decide) (by decide)]
  simp

/-- C7 amended: parsing a metainfo file whose `pieces` byte-string has
a length not divisible by 20 SUCCEEDS — `_split_pieces_hashes` performs
no divisibility check (no `MalformedMetainfo` exists in the code) and
simply splits the blob into 20-byte chunks with a short final chunk. -/
theorem c7_amended (ann nm blob : List Nat) (plen len : Int)
    (hann : ann.all (· < 128) = true) (hnm : nm.all (· < 128) = true)
    (hblob : blob.all (· < 256) = true)
    (hndiv : blob.length % 20 ≠ 0) :
    ∃ t, torrentParse (encode (.dict [(announceKey, .str ann),
      (infoKey, .dict [(lengthKey, .int len), (nameKey, .str nm),
        (pieceLengthKey, .int plen), (piecesKey, .str blob)])])) = some t ∧
      t.piecesHashes = splitPiecesHashes blob :=
  ⟨_, torrentParse_single_file ann nm blob plen len hann hnm hblob, rfl⟩

/-- Witness for the amended C7 at a 21-byte pieces blob. -/
theorem c7_witness :
    (List.replicate 21 (0 : Nat)).all (· < 256) = true ∧
    (List.replicate 21 (0 : Nat)).length % 20 ≠ 0 ∧
    ∃ t, torrentParse (encode (.dict [(announceKey, .str [98]),
      (infoKey, .dict [(lengthKey, .int 21), (nameKey, .str [99]),
        (pieceLengthKey, .int 16384),
        (piecesKey, .str (List.replicate 21 0))])])) = some t ∧
      t.piecesHashes = splitPiecesHashes (List.replicate 21 0) :=
  ⟨by decide, by decide,
    c7_amended [98] [99] (List.replicate 21 0) 16384 21
      (by decide) (by decide) (by decide) (by decide)⟩

/-! ## Key-set lemmas for the pending dictionary -/

theorem getD_set_self {α : Type} (l : List α) (i : Nat) (a d : α)
    (h : i < l.length) : (l.set i a).getD i d = a := by
  rw [List.getD_eq_getElem?_getD, List.getElem?_set_eq h]
  rfl

theorem getD_set_ne {α : Type} (l : List α) {i j : Nat} (a d : α)
    (h : i ≠ j) : (l.set i a).getD j d = l.getD j d := by
  rw [List.getD_eq_getElem?_getD, List.getElem?_set_ne h,
    List.getD_eq_getElem?_getD]

theorem assocLookup_eq_none {κ α : Type} [DecidableEq κ] {k : κ}
    {l : List (κ × α)} :
    assocLookup k l = none ↔ k ∉ l.map Prod.fst := by
  induction l with
  | nil => simp [assocLookup]
  | cons p rest ih =>
    obtain ⟨k', v'⟩ := p
    by_cases h : k' = k
    · subst h
      simp [assocLookup]
    · rw [assocLookup, if_neg h, ih]
      simp only [List.map_cons, List.mem_cons]
      constructor
      · intro hn hc
        rcases hc with hc | hc
        · exact h hc.symm
        · exact hn hc
      · intro hn hc
        exact hn (Or.inr hc)

theorem mem_keys_of_lookup {κ α : Type} [DecidableEq κ] {k : κ} {v : α}
    {l : List (κ × α)} (h : assocLookup k l = some v) :
    k ∈ l.map Prod.fst := by
  have hm := assocLookup_mem h
  exact List.mem_map_of_mem Prod.fst hm

theorem assocInsert_keys {κ α : Type} [DecidableEq κ] (k : κ) (v : α)
    (l : List (κ × α)) :
    (assocInsert k v l).map Prod.fst =
      if k ∈ l.map Prod.fst then l.map Prod.fst
      else l.map Prod.fst ++ [k] := by
  induction l with
  | nil => simp [assocInsert]
  | cons p rest ih =>
    obtain ⟨k', v'⟩ := p
    by_cases h : k' = k
    · subst h
      simp [assocInsert]
    · have h2 : ¬ k = k' := fun he => h he.symm
      simp only [assocInsert, if_neg h, List.map_cons]
      rw [ih]
      by_cases h3 : k ∈ rest.map Prod.fst
      · rw [if_pos h3, if_pos (by simp [h3])]
      · rw [if_neg h3, if_neg (by simp [h2, h3])]
        simp

theorem assocRemove_keys {κ α : Type} [DecidableEq κ] (k : κ)
    (l : List (κ × α)) :
    (assocRemove k l).map Prod.fst = (l.map Prod.fst).erase k := by
  induction l with
  | nil => simp [assocRemove]
  | cons p rest ih =>
    obtain ⟨k', v'⟩ := p
    by_cases h : k' = k
    · subst h
      simp [assocRemove, List.erase_cons_head]
    · simp only [assocRemove, if_neg h, List.map_cons]
      rw [List.erase_cons_tail, ih]
      simp [h]

theorem phase1_keys (T : TorrentCtx) (now : Nat) :
    ∀ (pending : List (Nat × PieceSt)) (r : Nat × Nat × Nat)
      (pending' : List (Nat × PieceSt)),
    phase1 T now pending = some (r, pending') →
    pending'.map Prod.fst = pending.map Prod.fst := by
  intro pending
  induction pending with
  | nil => intro r p' h; simp [phase1] at h
  | cons e rest ih =>
    obtain ⟨i, p⟩ := e
    intro r pending' h
    rw [phase1] at h
    rcases hto : getTimedOutBlocks now p with _ | ⟨b, bs⟩
    · rw [hto] at h
      rcases hrec : phase1 T now rest with _ | ⟨r', rest'⟩
      · rw [hrec] at h
        simp at h
      · rw [hrec] at h
        simp only [Option.map_some'] at h
        obtain ⟨rfl, rfl⟩ : r' = r ∧ (i, p) :: rest' = pending' := by
          simpa [Prod.ext_iff] using h
        simp [ih r' rest' hrec]
    · rw [hto] at h
      simp only [Option.some.injEq, Prod.mk.injEq] at h
      obtain ⟨-, hpend⟩ := h
      rw [← hpend]
      simp

theorem phase2_keys (T : TorrentCtx) (now : Nat) :
    ∀ (sh : List Nat) (pending : List (Nat × PieceSt)),
    (pending.map Prod.fst).Nodup →
    ((phase2 T now sh pending).2.map Prod.fst).Nodup ∧
    (∀ j ∈ (phase2 T now sh pending).2.map Prod.fst,
      j ∈ pending.map Prod.fst ∨ j ∈ sh) := by
  intro sh
  induction sh with
  | nil =>
    intro pending hnd
    simp only [phase2]
    exact ⟨hnd, fun j hj => Or.inl hj⟩
  | cons i rest ih =>
    intro pending hnd
    rw [phase2]
    rcases hlk : assocLookup i pending with _ | p0
    · have hnotin : i ∉ pending.map Prod.fst := assocLookup_eq_none.mp hlk
      have hkeys1 : (assocInsert i
          (mkPiece i (getPieceLength T i) (T.piecesHashes.getD i []))
          pending).map Prod.fst = pending.map Prod.fst ++ [i] := by
        rw [assocInsert_keys, if_neg hnotin]
      have hnd1 : ((assocInsert i
          (mkPiece i (getPieceLength T i) (T.piecesHashes.getD i []))
          pending).map Prod.fst).Nodup := by
        rw [hkeys1]
        simp [List.nodup_append, hnd, hnotin]
      have hlk1 : assocLookup i (assocInsert i
          (mkPiece i (getPieceLength T i) (T.piecesHashes.getD i []))
          pending) = some (mkPiece i (getPieceLength T i)
            (T.piecesHashes.getD i [])) := by
        rw [assocLookup_assocInsert, if_pos rfl]
      simp only [hlk1]
      rcases hfind : (List.range (mkPiece i (getPieceLength T i)
          (T.piecesHashes.getD i [])).blocks.length).find?
          (fun b => isBlockAvailable now
            (mkPiece i (getPieceLength T i) (T.piecesHashes.getD i [])) b)
          with _ | b
      · have hrec := ih (assocInsert i
          (mkPiece i (getPieceLength T i) (T.piecesHashes.getD i []))
          pending) hnd1
        refine ⟨hrec.1, ?_⟩
        intro j hj
        rcases hrec.2 j hj with h | h
        · rw [hkeys1] at h
          rcases List.mem_append.mp h with h | h
          · exact Or.inl h
          · rw [List.mem_singleton] at h
            exact Or.inr (by simp [h])
        · exact Or.inr (List.mem_cons_of_mem _ h)
      · have hmem1 : i ∈ (assocInsert i
            (mkPiece i (getPieceLength T i) (T.piecesHashes.getD i []))
            pending).map Prod.fst := mem_keys_of_lookup hlk1
        have hkeys2 : (assocInsert i (markBlockRequested now b
            (mkPiece i (getPieceLength T i) (T.piecesHashes.getD i [])))
            (assocInsert i
              (mkPiece i (getPieceLength T i) (T.piecesHashes.getD i []))
              pending)).map Prod.fst =
            pending.map Prod.fst ++ [i] := by
          rw [assocInsert_keys, if_pos hmem1, hkeys1]
        refine ⟨?_, ?_⟩
        · rw [hkeys2]
          simp [List.nodup_append, hnd, hnotin]
        · intro j hj
          rw [hkeys2] at hj
          rcases List.mem_append.mp hj with h | h
          · exact Or.inl h
          · rw [List.mem_singleton] at h
            exact Or.inr (by simp [h])
    · simp only [hlk]
      rcases hfind : (List.range p0.blocks.length).find?
          (fun b => isBlockAvailable now p0 b) with _ | b
      · have hrec := ih pending hnd
        refine ⟨hrec.1, ?_⟩
        intro j hj
        rcases hrec.2 j hj with h | h
        · exact Or.inl h
        · exact Or.inr (List.mem_cons_of_mem _ h)
      · have hmem1 : i ∈ pending.map Prod.fst := mem_keys_of_lookup hlk
        have hkeys2 : (assocInsert i (markBlockRequested now b p0)
            pending).map Prod.fst = pending.map Prod.fst := by
          rw [assocInsert_keys, if_pos hmem1]
        refine ⟨?_, ?_⟩
        · rw [hkeys2]
          exact hnd
        · intro j hj
          rw [hkeys2] at hj
          exact Or.inl hj

/-! ## Preservation of the piece-manager invariant -/

theorem pminv_init (T : TorrentCtx) (files : List FileRec) :
    PMInv T (initState T files) := by
  refine ⟨by simp [initState], by simp [initState, List.nodup_range], ?_,
    by simp [initState], by simp [initState]⟩
  intro i
  simp only [initState, List.mem_range]
  constructor
  · intro h
    refine ⟨h, ?_⟩
    rw [List.getD_eq_getElem?_getD, List.getElem?_replicate, if_pos h]
    rfl
  · intro h
    exact h.1

theorem pminv_gnr (T : TorrentCtx) (sh : List Nat) (now : Nat)
    (s : PMState) (hperm : sh.Perm s.missing) (h : PMInv T s) :
    PMInv T (getNextRequest T sh now s).2 := by
  obtain ⟨h1, h2, h3, h4, h5⟩ := h
  rw [getNextRequest]
  rcases hp1 : phase1 T now s.pending with _ | rp
  · have hk := phase2_keys T now sh s.pending h4
    refine ⟨h1, h2, h3, hk.1, ?_⟩
    intro k hkmem
    rcases hk.2 k hkmem with hmem | hmem
    · exact h5 k hmem
    · exact hperm.mem_iff.mp hmem
  · obtain ⟨r, pending'⟩ := rp
    have hkeys := phase1_keys T now s.pending r pending' hp1
    refine ⟨h1, h2, h3, by rw [hkeys]; exact h4, ?_⟩
    intro k hkmem
    rw [hkeys] at hkmem
    exact h5 k hkmem

theorem pminv_recv (T : TorrentCtx) (i off : Nat) (data : List Nat)
    (s s' : PMState) (ok : Bool)
    (hrecv : blockReceived T i off data s = some (ok, s'))
    (h : PMInv T s) : PMInv T s' := by
  obtain ⟨h1, h2, h3, h4, h5⟩ := h
  simp only [blockReceived] at hrecv
  split at hrecv
  · simp only [Option.some.injEq, Prod.mk.injEq] at hrecv
    obtain ⟨-, rfl⟩ := hrecv
    exact ⟨h1, h2, h3, h4, h5⟩
  · next p hlk =>
    have hkeymem : i ∈ s.pending.map Prod.fst := mem_keys_of_lookup hlk
    have hkeys1 : (assocInsert i (addBlock off data p) s.pending).map
        Prod.fst = s.pending.map Prod.fst := by
      rw [assocInsert_keys, if_pos hkeymem]
    split at hrecv
    · exact absurd hrecv (by simp)
    · simp only [Option.some.injEq, Prod.mk.injEq] at hrecv
      obtain ⟨-, rfl⟩ := hrecv
      exact ⟨h1, h2, h3, h4, h5⟩
    · split at hrecv
      · split at hrecv
        · split at hrecv
          · next hlen =>
            split at hrecv
            · next hmiss =>
              simp only [Option.some.injEq, Prod.mk.injEq] at hrecv
              obtain ⟨-, rfl⟩ := hrecv
              refine ⟨by simpa using h1, h2.erase i, ?_, ?_, ?_⟩
              · intro j
                by_cases hji : j = i
                · subst hji
                  constructor
                  · intro hj
                    have hj2 := (h2.mem_erase_iff).mp hj
                    exact absurd rfl hj2.1
                  · rintro ⟨hjN, hjval⟩
                    rw [getD_set_self _ _ _ _ hlen] at hjval
                    simp at hjval
                · constructor
                  · intro hj
                    have hj2 := ((h2.mem_erase_iff).mp hj).2
                    have hj3 := (h3 j).mp hj2
                    refine ⟨hj3.1, ?_⟩
                    rw [getD_set_ne _ _ _ (fun he => hji he.symm)]
                    exact hj3.2
                  · rintro ⟨hjN, hjval⟩
                    rw [getD_set_ne _ _ _ (fun he => hji he.symm)] at hjval
                    have hj4 := (h3 j).mpr ⟨hjN, hjval⟩
                    exact (h2.mem_erase_iff).mpr ⟨hji, hj4⟩
              · rw [assocRemove_keys, hkeys1]
                exact h4.erase i
              · intro k hk
                rw [assocRemove_keys, hkeys1] at hk
                have hk2 := (h4.mem_erase_iff).mp hk
                have hk3 := h5 k hk2.2
                exact (h2.mem_erase_iff).mpr ⟨hk2.1, hk3⟩
            · exact absurd hrecv (by simp)
          · exact absurd hrecv (by simp)
        · simp only [Option.some.injEq, Prod.mk.injEq] at hrecv
          obtain ⟨-, rfl⟩ := hrecv
          refine ⟨h1, h2, h3, ?_, ?_⟩
          · rw [assocRemove_keys, hkeys1]
            exact h4.erase i
          · intro k hk
            rw [assocRemove_keys, hkeys1] at hk
            exact h5 k (List.mem_of_mem_erase hk)
      · simp only [Option.some.injEq, Prod.mk.injEq] at hrecv
        obtain ⟨-, rfl⟩ := hrecv
        refine ⟨h1, h2, h3, by rw [hkeys1]; exact h4, ?_⟩
        intro k hk
        rw [hkeys1] at hk
        exact h5 k hk

/-- The invariant holds in every reachable state. -/
theorem pminv_reachable (T : TorrentCtx) (s : PMState)
    (h : Reachable T s) : PMInv T s := by
  induction h with
  | init files => exact pminv_init T files
  | gnr shuffled now _ hperm ih => exact pminv_gnr T shuffled now _ hperm ih
  | recv i off data ok _ hrecv ih => exact pminv_recv T i off data _ _ ok hrecv ih

/-! ## Claim theorems for the piece manager -/

/-- C3: in every state reachable from construction by any sequence of
`get_next_request` and `block_received` calls, the missing set and the
have set partition `[0, N)` (each index below `N` is missing exactly
when not `have`, every missing index is below `N`, and `missing` has no
duplicates), and the pending dict's key set is contained in missing. -/
theorem c3_partition_invariant (T : TorrentCtx) (s : PMState)
    (hs : Reachable T s) :
    (∀ i, i < T.numPieces →
      (i ∈ s.missing ↔ ¬ s.havePieces.getD i false = true)) ∧
    (∀ i ∈ s.missing, i < T.numPieces) ∧
    s.missing.Nodup ∧
    (∀ k ∈ s.pending.map Prod.fst, k ∈ s.missing) := by
  obtain ⟨h1, h2, h3, h4, h5⟩ := pminv_reachable T s hs
  refine ⟨?_, ?_, h2, h5⟩
  · intro i hi
    rw [Bool.not_eq_true, h3 i]
    exact ⟨fun hh => hh.2, fun hh => ⟨hi, hh⟩⟩
  · intro i hi
    exact ((h3 i).mp hi).1

/-- Witness for C3 at the freshly constructed manager of the two-piece
demo torrent. -/
theorem c3_witness :
    Reachable demoT (initState demoT []) ∧
    ((∀ i, i < demoT.numPieces →
      (i ∈ (initState demoT []).missing ↔
        ¬ (initState demoT []).havePieces.getD i false = true)) ∧
    (∀ i ∈ (initState demoT []).missing, i < demoT.numPieces) ∧
    (initState demoT []).missing.Nodup ∧
    (∀ k ∈ (initState demoT []).pending.map Prod.fst,
      k ∈ (initState demoT []).missing)) :=
  ⟨Reachable.init [], c3_partition_invariant demoT (initState demoT [])
    (Reachable.init [])⟩

/-- C4: when piece `i` is pending and the block at `offset` is in range
but not yet marked received, `block_received(i, offset, data)` returns
True and increases `total_downloaded` by exactly `len(data)`; when that
block is already marked received, it returns True, leaves
`total_downloaded` unchanged, and does not touch the piece (in
particular the piece buffer is not rewritten).  The two in-range
side conditions (`i` within `have` and still missing) hold in every
reachable state by C3. -/
theorem c4_total_downloaded (T : TorrentCtx) (s : PMState) (i off : Nat)
    (data : List Nat) (p : PieceSt)
    (hp : assocLookup i s.pending = some p)
    (hbi : off / BLOCK_SIZE < p.blocks.length)
    (hlen : i < s.havePieces.length) (hmiss : i ∈ s.missing) :
    (p.blocks.getD (off / BLOCK_SIZE) false = false →
      ∃ s', blockReceived T i off data s = some (true, s') ∧
        s'.totalDownloaded = s.totalDownloaded + data.length) ∧
    (p.blocks.getD (off / BLOCK_SIZE) false = true →
      ∃ s', blockReceived T i off data s = some (true, s') ∧
        s'.totalDownloaded = s.totalDownloaded ∧
        assocLookup i s'.pending = some p) := by
  have hget : ∀ bv : Bool, p.blocks.getD (off / BLOCK_SIZE) false = bv →
      p.blocks.get? (off / BLOCK_SIZE) = some bv := by
    intro bv hbv
    rw [List.getD_eq_getElem?_getD] at hbv
    rw [List.get?_eq_getElem?]
    rcases hx : p.blocks[off / BLOCK_SIZE]? with _ | b
    · rw [List.getElem?_eq_none_iff] at hx
      omega
    · rw [hx] at hbv
      simp only [Option.getD_some] at hbv
      rw [hbv]
  constructor
  · intro hfalse
    have hg := hget false hfalse
    simp only [blockReceived, hp, hg, if_pos hlen, if_pos hmiss]
    split
    · split
      · exact ⟨_, rfl, rfl⟩
      · exact ⟨_, rfl, rfl⟩
    · exact ⟨_, rfl, rfl⟩
  · intro htrue
    have hg := hget true htrue
    simp only [blockReceived, hp, hg]
    exact ⟨s, rfl, rfl, hp⟩

/-- Witness for C4: a one-piece, one-block manager state exercising the
first-arrival branch. -/
theorem c4_witness :
    assocLookup 0 demoRecvState.pending = some demoPiece ∧
    (0 : Nat) / BLOCK_SIZE < demoPiece.blocks.length ∧
    (0 : Nat) < demoRecvState.havePieces.length ∧
    (0 : Nat) ∈ demoRecvState.missing ∧
    (demoPiece.blocks.getD (0 / BLOCK_SIZE) false = false →
      ∃ s', blockReceived demoT 0 0 [7, 7, 7, 7] demoRecvState =
          some (true, s') ∧
        s'.totalDownloaded = demoRecvState.totalDownloaded +
          ([7, 7, 7, 7] : List Nat).length) := by
  refine ⟨rfl, by decide, by decide, by decide, ?_⟩
  exact (c4_total_downloaded demoT demoRecvState 0 0 [7, 7, 7, 7] demoPiece
    rfl (by decide) (by decide) (by decide)).1

/-! ## C5: timed-out blocks are served first, in pending-dict order -/

theorem phase1_spec (T : TorrentCtx) (now : Nat)
    (pend : List (Nat × PieceSt)) :
    ∀ (k i : Nat) (p : PieceSt) (b : Nat) (rest : List Nat),
      pend.get? k = some (i, p) →
      (∀ j, j < k → ∀ q : Nat × PieceSt, pend.get? j = some q →
        getTimedOutBlocks now q.2 = []) →
      getTimedOutBlocks now p = b :: rest →
      phase1 T now pend =
        some ((i, b * BLOCK_SIZE,
            min BLOCK_SIZE (getPieceLength T i - b * BLOCK_SIZE)),
          pend.take k ++ (i, markBlockRequested now b p) ::
            pend.drop (k + 1)) := by
  induction pend with
  | nil => intro k i p b rest hk _ _; simp at hk
  | cons hd tl ih =>
    obtain ⟨j, q⟩ := hd
    intro k i p b rest hk hbefore ht
    cases k with
    | zero =>
      obtain ⟨rfl, rfl⟩ : j = i ∧ q = p := by simpa using hk
      simp [phase1, ht]
    | succ k' =>
      have h0 : getTimedOutBlocks now q = [] :=
        hbefore 0 (Nat.succ_pos k') (j, q) rfl
      have hbefore' : ∀ j', j' < k' → ∀ q' : Nat × PieceSt,
          tl.get? j' = some q' → getTimedOutBlocks now q'.2 = [] :=
        fun j' hj' q' hq' =>
          hbefore (j' + 1) (Nat.succ_lt_succ hj') q' hq'
      have hk' : tl.get? k' = some (i, p) := by simpa using hk
      have hrec := ih k' i p b rest hk' hbefore' ht
      simp [phase1, h0, hrec]

/-- C5 (amended): whenever the pending dict, scanned in insertion order,
first reaches a piece `i` (at position `k`) whose timed-out-block list is
nonempty with head `b`, `get_next_request` returns that block — the
lowest-indexed timed-out block of the FIRST pending piece in dict
insertion order, not of the lowest-indexed pending piece — before
consulting the shuffled missing list at all (so before any block of a
piece not yet pending, for every shuffle oracle), and sets that block's
requested-at timestamp to `now`. -/
theorem c5_timeout_first_pending (T : TorrentCtx) (shuffled : List Nat)
    (now : Nat) (s : PMState) (k i : Nat) (p : PieceSt) (b : Nat)
    (rest : List Nat)
    (hk : s.pending.get? k = some (i, p))
    (hbefore : ∀ j, j < k → ∀ q : Nat × PieceSt,
      s.pending.get? j = some q → getTimedOutBlocks now q.2 = [])
    (htimed : getTimedOutBlocks now p = b :: rest) :
    getNextRequest T shuffled now s =
      (some (i, b * BLOCK_SIZE,
          min BLOCK_SIZE (getPieceLength T i - b * BLOCK_SIZE)),
        { s with pending := s.pending.take k ++
            (i, markBlockRequested now b p) :: s.pending.drop (k + 1) }) := by
  have h1 := phase1_spec T now s.pending k i p b rest hk hbefore htimed
  simp [getNextRequest, h1]

/-- C5 counterexample to the frozen wording: in `demoState` piece 0 is
pending and has timed-out block 0 at time 100, yet `get_next_request`
returns a block of piece 1 — the pending dict is scanned in insertion
order (piece 1 was inserted first), not by lowest piece index. -/
theorem c5_counterexample :
    (∃ q, assocLookup 0 demoState.pending = some q ∧
        getTimedOutBlocks 100 q = [0]) ∧
    (getNextRequest demoT [0, 1] 100 demoState).1 = some (1, 0, 16384) :=
  ⟨⟨_, rfl, rfl⟩, rfl⟩

/-- Witness for C5: a one-entry pending dict whose piece 0 timed out. -/
theorem c5_witness :
    demoRecvState.pending.get? 0 = some (0, demoPiece) ∧
    getTimedOutBlocks 100 demoPiece = [0] ∧
    getNextRequest demoT [] 100 demoRecvState =
      (some (0, 0 * BLOCK_SIZE,
          min BLOCK_SIZE (getPieceLength demoT 0 - 0 * BLOCK_SIZE)),
        { demoRecvState with pending := demoRecvState.pending.take 0 ++
            (0, markBlockRequested 100 0 demoPiece) ::
              demoRecvState.pending.drop (0 + 1) }) := by
  refine ⟨rfl, rfl, ?_⟩
  exact c5_timeout_first_pending demoT [] 100 demoRecvState 0 0 demoPiece 0 []
    rfl (by intro j hj; exact absurd hj (Nat.not_lt_zero j)) rfl

/-! ## C6: multi-file striping in write_piece_to_disk -/

theorem writePieceLoop_stop (files : List FileRec) (p : PieceSt)
    (dataPtr pieceOffset : Nat) (hge : ¬ dataPtr < p.length) :
    writePieceLoop files p dataPtr pieceOffset = files := by
  rw [writePieceLoop, dif_neg hge]

theorem writePieceLoop_step (files : List FileRec) (p : PieceSt)
    (dataPtr pieceOffset idx : Nat) (f : FileRec)
    (hlt : dataPtr < p.length)
    (hf : getFileForOffset files pieceOffset = some (idx, f)) :
    writePieceLoop files p dataPtr pieceOffset =
      writePieceLoop
        (files.set idx { f with content := (pySliceAssign f.content
          (pieceOffset - f.start)
          ((p.data.drop dataPtr).take
            (min (p.length - dataPtr) (f.stop - pieceOffset)))) })
        p (dataPtr + min (p.length - dataPtr) (f.stop - pieceOffset))
        (pieceOffset + min (p.length - dataPtr) (f.stop - pieceOffset)) := by
  rw [writePieceLoop, dif_pos hlt]
  split
  · next heq => rw [hf] at heq; exact Option.noConfusion heq
  · next idx' f' heq =>
    rw [hf] at heq
    obtain ⟨rfl, rfl⟩ : idx = idx' ∧ f = f' := by
      have := Option.some.inj heq
      exact ⟨congrArg Prod.fst this, congrArg Prod.snd this⟩
    rfl

/-- C6: for a two-file torrent whose files each hold `half` bytes and a
piece 0 of length `2 * half`, writing piece 0 to disk puts the first
`half` bytes of the piece buffer at offset 0 of file 0 and the remaining
`half` bytes at offset 0 of file 1. -/
theorem c6_multi_file_striping (T : TorrentCtx) (half : Nat)
    (c0 c1 d hashv : List Nat) (hpos : 0 < half)
    (hc0 : c0.length = half) (hc1 : c1.length = half)
    (hd : d.length = 2 * half) :
    writePieceToDisk T [⟨0, half, c0⟩, ⟨half, 2 * half, c1⟩]
      ({ index := 0, length := 2 * half, hashValue := hashv, blocks := [],
         requestedBlocks := [], data := d, numBlocksReceived := 0 } :
        PieceSt) =
      [⟨0, half, d.take half⟩, ⟨half, 2 * half, d.drop half⟩] := by
  have h2 : half < 2 * half := by omega
  have hf0 : getFileForOffset
      [(⟨0, half, c0⟩ : FileRec), ⟨half, 2 * half, c1⟩] 0 =
      some (0, (⟨0, half, c0⟩ : FileRec)) := by
    simp [getFileForOffset, hpos]
  have e1 : min (2 * half - 0) (half - 0) = half := by omega
  have hcont0 : pySliceAssign c0 (0 - 0) ((d.drop 0).take half) =
      d.take half := by
    have hlt : (d.take half).length = half := by simp [hd]; omega
    simp [pySliceAssign, hlt, List.drop_eq_nil_of_le, hc0]
  have hf1 : getFileForOffset
      [(⟨0, half, d.take half⟩ : FileRec), ⟨half, 2 * half, c1⟩] half =
      some (1, (⟨half, 2 * half, c1⟩ : FileRec)) := by
    simp [getFileForOffset, h2]
  have e2 : min (2 * half - half) (2 * half - half) = half := by
    omega
  have hcont1 : pySliceAssign c1 (half - half)
      ((d.drop half).take half) = d.drop half := by
    have hlen : (d.drop half).length = half := by simp [hd]; omega
    have htk : (d.drop half).take half = d.drop half :=
      List.take_of_length_le (le_of_eq hlen)
    simp [pySliceAssign, htk, hlen, List.drop_eq_nil_of_le, hc1]
  simp only [writePieceToDisk, Nat.zero_mul]
  rw [writePieceLoop_step _ _ _ _ 0 ⟨0, half, c0⟩ (by simp; omega) hf0]
  simp only [e1, hcont0, List.set]
  simp only [Nat.zero_add]
  rw [writePieceLoop_step _ _ _ _ 1 ⟨half, 2 * half, c1⟩ (by simp; omega)
    hf1]
  simp only [e2, hcont1, List.set]
  rw [writePieceLoop_stop _ _ _ _ (by simp; omega)]

/-- Witness for C6: two one-byte files, a two-byte piece 0. -/
theorem c6_witness :
    ((0 : Nat) < 1 ∧ ([5] : List Nat).length = 1 ∧
      ([6] : List Nat).length = 1 ∧ ([7, 8] : List Nat).length = 2 * 1) ∧
    writePieceToDisk demoT [⟨0, 1, [5]⟩, ⟨1, 2 * 1, [6]⟩]
      ({ index := 0, length := 2 * 1, hashValue := [], blocks := [],
         requestedBlocks := [], data := [7, 8], numBlocksReceived := 0 } :
        PieceSt) =
      [⟨0, 1, ([7, 8] : List Nat).take 1⟩,
        ⟨1, 2 * 1, ([7, 8] : List Nat).drop 1⟩] :=
  ⟨⟨by decide, by decide, by decide, by decide⟩,
    c6_multi_file_striping demoT 1 [5] [6] [7, 8] [] (by decide) (by decide)
      (by decide) (by decide)⟩

/-! ## C9: tracker error handling -/

/-- C9 counterexample to the frozen wording: a 200 response whose body
fails bencode decoding does NOT yield `([], 60)` — the decode exception
is not among those the `except` clause catches, so it propagates out of
`get_peers` (modelled as `none`). -/
theorem c9_counterexample :
    getPeers (.ok 200 [120]) = none ∧
    ¬ getPeers (.ok 200 [120]) = some ([], .int 60) :=
  ⟨rfl, fun h => Option.noConfusion h⟩

/-- C9 (amended): a network error or timeout, and any non-200 status,
make `get_peers` return the pair `([], 60)`; but when the status is 200
and the body fails bencode decoding, `get_peers` raises (the `except`
clause catches only `aiohttp.ClientError` and `asyncio.TimeoutError`),
it does not return `([], 60)`. -/
theorem c9_tracker_errors (st : Nat) (body : List Nat)
    (h : st ≠ 200 ∨ decode body = none) :
    getPeers .netError = some ([], .int 60) ∧
    getPeers (.ok st body) =
      (if st = 200 then none else some ([], .int 60)) := by
  refine ⟨rfl, ?_⟩
  rcases h with hne | hdec
  · rw [if_neg hne]
    simp [getPeers, hne]
  · by_cases hst : st = 200
    · subst hst
      simp [getPeers, hdec]
    · rw [if_neg hst]
      simp [getPeers, hst]

/-- Witness for C9: a 404 status. -/
theorem c9_witness :
    ((404 : Nat) ≠ 200 ∨ decode [120] = none) ∧
    (getPeers .netError = some ([], .int 60) ∧
      getPeers (.ok 404 [120]) =
        (if (404 : Nat) = 200 then none else some ([], .int 60))) :=
  ⟨Or.inl (by decide), c9_tracker_errors 404 [120] (Or.inl (by decide))⟩
